import Mathlib

/-!
Verification of the LLM-response ingestion and normalization pipeline of the
code-review service in `backend/main.py`.

The Python source is shallowly embedded:
* JSON values are modelled by `JValue` (numeric literals as `Int`; float
  literals are outside the model, see `parseNumber`),
* Python dicts are modelled by association lists with Python's
  insertion-order / update-in-place semantics (`dictGet` / `dictSet`),
* the Python library functions the pipeline leans on (`json.loads`,
  `json.dumps`, `str.strip`, `str.split`, `str.join`, `str.replace`,
  `str.find`, `str.rfind`, `str`/`repr`, sqlite parameter binding, pydantic
  field validation) are modelled explicitly, with comments stating the
  modelling choices, next to the code they serve.

Fallible Python code (raising) is modelled with `Except`; the normalization
pipeline itself is total over all input strings, which is one of the proved
properties.
-/

set_option linter.unusedVariables false

/-- A parsed JSON value, as produced by Python's `json.loads`.
JSON numbers are modelled as integers; float literals (fraction/exponent
parts) are outside the model and make the modelled parse fail where Python
would produce a `float`.  No claim in this development depends on floats. -/
inductive JValue where
  | null
  | bool (b : Bool)
  | int (n : Int)
  | str (s : String)
  | arr (elems : List JValue)
  | obj (fields : List (String × JValue))

/-- Python dict lookup `d.get(k)` on an insertion-ordered association list
whose keys are unique (every constructor in this file preserves that). -/
def dictGet : List (String × JValue) → String → Option JValue
  | [], _ => none
  | (k, v) :: rest, key => if k = key then some v else dictGet rest key

/-- Python dict assignment `d[k] = v`: updates in place (keeping the key's
original position) when the key exists, appends otherwise. -/
def dictSet : List (String × JValue) → String → JValue → List (String × JValue)
  | [], key, v => [(key, v)]
  | (k, w) :: rest, key, v =>
    if k = key then (k, v) :: rest else (k, w) :: dictSet rest key v

/-! ## Python string-operation models (over `List Char`) -/

/-- Whitespace stripped by `str.strip()`.  Python strips all Unicode
whitespace; the model covers the ASCII whitespace characters, which is what
every string handled by the pipeline's tests and theorems contains. -/
def pyWs (c : Char) : Bool :=
  c = ' ' || c = '\t' || c = '\n' || c = '\r' || c = '\x0b' || c = '\x0c'

/-- Model of `str.strip()`. -/
def stripChars (l : List Char) : List Char :=
  ((l.dropWhile pyWs).reverse.dropWhile pyWs).reverse

/-- Model of `str.split('\n')`.  As in Python, `"".split('\n') == [""]` and
the result is never empty. -/
def splitNl : List Char → List (List Char)
  | [] => [[]]
  | c :: rest =>
    if c = '\n' then [] :: splitNl rest
    else
      match splitNl rest with
      | [] => [[c]]
      | h :: t => (c :: h) :: t

/-- Model of `'\n'.join(parts)`. -/
def joinNl : List (List Char) → List Char
  | [] => []
  | [x] => x
  | x :: xs => x ++ '\n' :: joinNl xs

/-- Whether `pat` is an initial segment of `l` (used to model
`str.startswith` and the match step of `str.replace`). -/
def leadsWith : List Char → List Char → Bool
  | [], _ => true
  | _ :: _, [] => false
  | p :: ps, c :: cs => p = c && leadsWith ps cs

/-- Whether `pat` occurs as a contiguous segment anywhere in `l`. -/
def occursIn (pat : List Char) (l : List Char) : Bool :=
  match l with
  | [] => pat.isEmpty
  | _ :: rest => leadsWith pat l || occursIn pat rest

/-- Fuel-driven worker for `pyReplaceList`; the fuel is the input length, so
it never runs out.  Matches are found left to right and are non-overlapping,
as in CPython. -/
def pyReplaceAux : Nat → List Char → List Char → List Char → List Char
  | 0, l, _, _ => l
  | _ + 1, [], _, _ => []
  | fuel + 1, c :: rest, old, new =>
    if !old.isEmpty && leadsWith old (c :: rest) then
      new ++ pyReplaceAux fuel ((c :: rest).drop old.length) old new
    else
      c :: pyReplaceAux fuel rest old new

/-- Model of `str.replace(old, new)` for non-empty `old` (the only way the
source calls it; Python's empty-pattern behavior is not modelled). -/
def pyReplaceList (l old new : List Char) : List Char :=
  pyReplaceAux l.length l old new

/-- Model of `str.find(c)`: index of the first occurrence, `none` for
Python's `-1`. -/
def findChar : List Char → Char → Option Nat
  | [], _ => none
  | c :: rest, t => if c = t then some 0 else (findChar rest t).map (· + 1)

/-- Model of `str.rfind(c) + 1`: one past the index of the last occurrence,
`0` when the character does not occur (Python's `-1 + 1`). -/
def rfindEnd (l : List Char) (c : Char) : Nat :=
  match findChar l.reverse c with
  | none => 0
  | some r => l.length - r

/-- Model of the Python slice `l[a:b]` for non-negative bounds. -/
def pySlice (l : List Char) (a b : Nat) : List Char :=
  (l.drop a).take (b - a)

/-! ## Model of Python `str`/`repr` on JSON-decoded values

`analyze_code_with_llm` applies `str(...)` to list elements that are not
dicts; for strings `str` is the identity, for every other decoded value it
agrees with `repr`. -/

/-- Decimal digit character. -/
def digitChar : Nat → Char
  | 0 => '0'
  | 1 => '1'
  | 2 => '2'
  | 3 => '3'
  | 4 => '4'
  | 5 => '5'
  | 6 => '6'
  | 7 => '7'
  | 8 => '8'
  | _ => '9'

/-- Base-10 digits of `n`, least significant first, by structural recursion
on a fuel bound (so that it computes by `rfl`); agrees with `Nat.digits 10`
whenever `n ≤ fuel`, see `natDigitsRev_eq_digits`. -/
def natDigitsRev : Nat → Nat → List Nat
  | 0, _ => []
  | _ + 1, 0 => []
  | fuel + 1, n + 1 => ((n + 1) % 10) :: natDigitsRev fuel ((n + 1) / 10)

/-- Decimal rendering of a natural number, most significant digit first. -/
def natSerialize (n : Nat) : List Char :=
  if n = 0 then ['0'] else ((natDigitsRev n n).map digitChar).reverse

/-- Decimal rendering of an integer (Python `repr` of an `int`, and also the
`json.dumps` rendering of an `int`). -/
def intSerialize (n : Int) : List Char :=
  if n < 0 then '-' :: natSerialize n.natAbs else natSerialize n.natAbs

/-- Escaping of one character inside a Python string `repr` with quote
character `q`.  Python additionally renders non-printable characters with
`\xNN` escapes; those are kept verbatim here — no theorem depends on them. -/
def pyReprEscChar (q : Char) (c : Char) : List Char :=
  if c = '\\' then ['\\', '\\']
  else if c = q then ['\\', q]
  else if c = '\n' then ['\\', 'n']
  else if c = '\r' then ['\\', 'r']
  else if c = '\t' then ['\\', 't']
  else [c]

/-- Model of Python `repr` of a `str`: single quotes, switching to double
quotes when the string contains a single quote but no double quote. -/
def pyStrRepr (s : String) : String :=
  let q := if s.toList.contains '\'' && !(s.toList.contains '"') then '"' else '\''
  String.mk (q :: ((s.toList.map (pyReprEscChar q)).flatten ++ [q]))

mutual
/-- Model of Python `repr` on JSON-decoded values. -/
def pyRepr : JValue → String
  | .null => "None"
  | .bool true => "True"
  | .bool false => "False"
  | .int n => String.mk (intSerialize n)
  | .str s => pyStrRepr s
  | .arr l => "[" ++ pyReprList l ++ "]"
  | .obj f => "\x7b" ++ pyReprFields f ++ "\x7d"
/-- `repr` of the comma-separated inside of a Python list. -/
def pyReprList : List JValue → String
  | [] => ""
  | [x] => pyRepr x
  | x :: xs => pyRepr x ++ ", " ++ pyReprList xs
/-- `repr` of the comma-separated inside of a Python dict. -/
def pyReprFields : List (String × JValue) → String
  | [] => ""
  | [(k, v)] => pyStrRepr k ++ ": " ++ pyRepr v
  | (k, v) :: kvs => pyStrRepr k ++ ": " ++ pyRepr v ++ ", " ++ pyReprFields kvs
end

/-- Model of Python `str(...)` on JSON-decoded values: identity on strings,
`repr` on everything else. -/
def pyStr (v : JValue) : String :=
  match v with
  | .str s => s
  | v => pyRepr v

/-! ## Model of `json.loads`

A recursive-descent parser following Python's `json` scanner: optional
whitespace between tokens, strings with the full escape set including
`\uXXXX` and surrogate pairs, numbers per the JSON grammar (`0` cannot be
followed by further digits in one literal).  Lone surrogate escapes, which
CPython would keep as unpaired surrogate code units, are not representable
in `Char` and are modelled as a parse failure; `json.dumps` output never
contains them.  Fraction/exponent parts (floats) are likewise modelled as a
parse failure, see `JValue`. -/

/-- JSON whitespace (`' '`, `'\t'`, `'\n'`, `'\r'`). -/
def jwsChar (c : Char) : Bool :=
  c = ' ' || c = '\t' || c = '\n' || c = '\r'

/-- Skip JSON whitespace between tokens. -/
def skipJWs : List Char → List Char :=
  List.dropWhile jwsChar

/-- Value of a hexadecimal digit (either case), `none` otherwise. -/
def hexVal (c : Char) : Option Nat :=
  if '0' ≤ c && c ≤ '9' then some (c.toNat - 48)
  else if 'a' ≤ c && c ≤ 'f' then some (c.toNat - 87)
  else if 'A' ≤ c && c ≤ 'F' then some (c.toNat - 55)
  else none

/-- Value of a four-digit hexadecimal escape body. -/
def hex4 (a b c d : Char) : Option Nat :=
  match hexVal a, hexVal b, hexVal c, hexVal d with
  | some x, some y, some z, some w => some ((((x * 16 + y) * 16 + z) * 16) + w)
  | _, _, _, _ => none

/-- Value of a decimal digit character, `none` otherwise. -/
def digitVal (c : Char) : Option Nat :=
  if '0' ≤ c && c ≤ '9' then some (c.toNat - 48) else none

/-- Consume a maximal run of decimal digits, accumulating their value. -/
def grabDigits (acc : Nat) : List Char → Nat × List Char
  | [] => (acc, [])
  | c :: r =>
    match digitVal c with
    | some d => grabDigits (acc * 10 + d) r
    | none => (acc, c :: r)

/-- Parse a JSON natural-number literal: `0`, or a nonzero digit followed by
any digits.  As in Python, `01` parses as `0` with `1` left over (the
caller then fails on the unexpected digit). -/
def parseNat : List Char → Option (Nat × List Char)
  | [] => none
  | c :: r =>
    if c = '0' then some (0, r)
    else
      match digitVal c with
      | some d => some (grabDigits d r)
      | none => none

/-- Parse a JSON integer literal with optional leading minus sign. -/
def parseNumber (l : List Char) : Option (JValue × List Char) :=
  match l with
  | [] => none
  | c :: r =>
    if c = '-' then (parseNat r).map (fun p => (JValue.int (-(p.1 : Int)), p.2))
    else (parseNat (c :: r)).map (fun p => (JValue.int ((p.1 : Int)), p.2))

/-- Decode the tail of a `\uXXXX` escape once its four hex digits are in
hand (`decodeU2` handles the low-surrogate partner of a high surrogate).
Lone surrogates, which CPython would keep as unpaired code units, are not
representable in `Char` and are modelled as a parse failure; `json.dumps`
output never contains them. -/
def decodeU2 (n : Nat) (g1 g2 g3 g4 : Char) (r2 : List Char) : Option (Char × List Char) :=
  match hex4 g1 g2 g3 g4 with
  | none => none
  | some m =>
    if 0xdc00 ≤ m && m < 0xe000 then
      some (Char.ofNat (0x10000 + (n - 0xd800) * 0x400 + (m - 0xdc00)), r2)
    else none

/-- Decode a `\uXXXX` escape body: basic-plane values become the character
directly; a high surrogate must be followed by a `\uXXXX` low surrogate
and the pair is combined. -/
def decodeU (h1 h2 h3 h4 : Char) (r1 : List Char) : Option (Char × List Char) :=
  match hex4 h1 h2 h3 h4 with
  | none => none
  | some n =>
    if n < 0xd800 || 0xe000 ≤ n then some (Char.ofNat n, r1)
    else if n < 0xdc00 then
      match r1 with
      | b1 :: b2 :: g1 :: g2 :: g3 :: g4 :: r2 =>
        if b1 = '\\' then if b2 = 'u' then decodeU2 n g1 g2 g3 g4 r2 else none
        else none
      | _ => none
    else none

/-- Decode one escape sequence after a backslash, returning the decoded
character and the remaining input.  The escape set is CPython
`scanstring`'s: `\" \\ \/ \b \f \n \r \t \uXXXX`. -/
def decodeEscape : List Char → Option (Char × List Char)
  | [] => none
  | e :: r =>
    if e = '"' then some ('"', r)
    else if e = '\\' then some ('\\', r)
    else if e = '/' then some ('/', r)
    else if e = 'b' then some ('\x08', r)
    else if e = 'f' then some ('\x0c', r)
    else if e = 'n' then some ('\n', r)
    else if e = 'r' then some ('\r', r)
    else if e = 't' then some ('\t', r)
    else if e = 'u' then
      match r with
      | h1 :: h2 :: h3 :: h4 :: r1 => decodeU h1 h2 h3 h4 r1
      | _ => none
    else none

/-- Parse the body of a JSON string (after the opening quote), accumulating
decoded characters in reverse.  Follows CPython `scanstring` with
`strict=True`: raw characters below `0x20` are rejected.  The fuel is a
modelling artifact for structural recursion: every step consumes at least
one input character, so the `input length + 1` supplied by the callers
never runs out. -/
def parseStringBody : Nat → List Char → List Char → Option (String × List Char)
  | 0, _, _ => none
  | _ + 1, _, [] => none
  | fuel + 1, acc, c :: rest =>
    if c = '"' then some (String.mk acc.reverse, rest)
    else if c = '\\' then
      match decodeEscape rest with
      | some p => parseStringBody fuel (p.1 :: acc) p.2
      | none => none
    else if 0x20 ≤ c.toNat then parseStringBody fuel (c :: acc) rest else none

mutual
/-- Parse one JSON value.  The fuel only bounds bracket-nesting depth; each
recursive step first consumes at least one character, so fuel
`input length + 1` (as supplied by `jparseL`) never runs out. -/
def parseValue : Nat → List Char → Option (JValue × List Char)
  | 0, _ => none
  | fuel + 1, l =>
    match l with
    | [] => none
    | c :: r =>
      if c = '\x7b' then
        match skipJWs r with
        | [] => parseMembers fuel [] []
        | c2 :: r2 =>
          if c2 = '\x7d' then some (.obj [], r2) else parseMembers fuel [] (c2 :: r2)
      else if c = '[' then
        match skipJWs r with
        | [] => parseItems fuel [] []
        | c2 :: r2 =>
          if c2 = ']' then some (.arr [], r2) else parseItems fuel [] (c2 :: r2)
      else if c = '"' then (parseStringBody (r.length + 1) [] r).map (fun p => (JValue.str p.1, p.2))
      else if c = 'n' then
        match r with
        | 'u' :: 'l' :: 'l' :: r2 => some (.null, r2)
        | _ => none
      else if c = 't' then
        match r with
        | 'r' :: 'u' :: 'e' :: r2 => some (.bool true, r2)
        | _ => none
      else if c = 'f' then
        match r with
        | 'a' :: 'l' :: 's' :: 'e' :: r2 => some (.bool false, r2)
        | _ => none
      else parseNumber (c :: r)
/-- Parse the members of a JSON object after its first key is known to
start; duplicate keys update in place as in Python's dict building. -/
def parseMembers : Nat → List (String × JValue) → List Char → Option (JValue × List Char)
  | 0, _, _ => none
  | fuel + 1, acc, l =>
    match l with
    | '"' :: rest =>
      match parseStringBody (rest.length + 1) [] rest with
      | none => none
      | some (k, r1) =>
        match skipJWs r1 with
        | ':' :: r2 =>
          match parseValue fuel (skipJWs r2) with
          | none => none
          | some (v, r3) =>
            match skipJWs r3 with
            | ',' :: r4 => parseMembers fuel (dictSet acc k v) (skipJWs r4)
            | '\x7d' :: r4 => some (.obj (dictSet acc k v), r4)
            | _ => none
        | _ => none
    | _ => none
/-- Parse the remaining items of a JSON array. -/
def parseItems : Nat → List JValue → List Char → Option (JValue × List Char)
  | 0, _, _ => none
  | fuel + 1, acc, l =>
    match parseValue fuel l with
    | none => none
    | some (v, r) =>
      match skipJWs r with
      | ',' :: r2 => parseItems fuel (acc ++ [v]) (skipJWs r2)
      | ']' :: r2 => some (.arr (acc ++ [v]), r2)
      | _ => none
end

/-- Model of `json.loads`: parse one value surrounded by optional
whitespace; anything left over is Python's "Extra data" error (`none`). -/
def jparseL (l : List Char) : Option JValue :=
  match parseValue (l.length + 1) (skipJWs l) with
  | some (v, rest) => if (skipJWs rest).isEmpty then some v else none
  | none => none

/-- The continuation of `parseMembers` after one key and its following colon
have been consumed: parse the value, then dispatch on the next delimiter.
`parseMembers` at a serialized member is definitionally this continuation. -/
def pmContinue (fuel : Nat) (acc : List (String × JValue)) (k : String)
    (res : Option (JValue × List Char)) : Option (JValue × List Char) :=
  match res with
  | none => none
  | some (v, r3) =>
    match skipJWs r3 with
    | ',' :: r4 => parseMembers fuel (dictSet acc k v) (skipJWs r4)
    | '\x7d' :: r4 => some (.obj (dictSet acc k v), r4)
    | _ => none

/-! ## Model of `json.dumps`

Default arguments, as called by `save_review_to_db`: ASCII-only output,
separators `", "` and `": "`, escaping per CPython's
`py_encode_basestring_ascii`. -/

/-- Lowercase hexadecimal digit character. -/
def hexDigitChar : Nat → Char
  | 0 => '0'
  | 1 => '1'
  | 2 => '2'
  | 3 => '3'
  | 4 => '4'
  | 5 => '5'
  | 6 => '6'
  | 7 => '7'
  | 8 => '8'
  | 9 => '9'
  | 10 => 'a'
  | 11 => 'b'
  | 12 => 'c'
  | 13 => 'd'
  | 14 => 'e'
  | _ => 'f'

/-- Four-digit lowercase hexadecimal rendering of `n < 0x10000`. -/
def toHex4 (n : Nat) : List Char :=
  [hexDigitChar (n / 4096 % 16), hexDigitChar (n / 256 % 16),
   hexDigitChar (n / 16 % 16), hexDigitChar (n % 16)]

/-- `json.dumps` escaping of one character (ASCII mode): short escapes for
the usual control characters, `\uXXXX` (with surrogate pairs above the
basic plane) for everything outside printable ASCII. -/
def encChar (c : Char) : List Char :=
  if c = '"' then ['\\', '"']
  else if c = '\\' then ['\\', '\\']
  else if c = '\x08' then ['\\', 'b']
  else if c = '\x0c' then ['\\', 'f']
  else if c = '\n' then ['\\', 'n']
  else if c = '\r' then ['\\', 'r']
  else if c = '\t' then ['\\', 't']
  else if 0x20 ≤ c.toNat && c.toNat ≤ 0x7e then [c]
  else if c.toNat < 0x10000 then '\\' :: 'u' :: toHex4 c.toNat
  else
    ('\\' :: 'u' :: toHex4 (0xd800 + (c.toNat - 0x10000) / 0x400)) ++
      ('\\' :: 'u' :: toHex4 (0xdc00 + (c.toNat - 0x10000) % 0x400))

/-- `json.dumps` rendering of a string. -/
def encString (s : String) : List Char :=
  '"' :: ((s.toList.map encChar).flatten ++ ['"'])

mutual
/-- `json.dumps` rendering of a value (default separators). -/
def dumpVal : JValue → List Char
  | .int n => intSerialize n
  | .str s => encString s
  | .bool false => ['f', 'a', 'l', 's', 'e']
  | .bool true => ['t', 'r', 'u', 'e']
  | .null => ['n', 'u', 'l', 'l']
  | .arr [] => ['[', ']']
  | .arr (x :: xs) => '[' :: (dumpVal x ++ (dumpRest xs ++ [']']))
  | .obj [] => ['\x7b', '\x7d']
  | .obj ((k, v) :: kvs) =>
    '\x7b' :: (encString k ++ ':' :: ' ' :: (dumpVal v ++ (dumpRestKV kvs ++ ['\x7d'])))
/-- Rendering of the remaining items of an array, each preceded by `", "`. -/
def dumpRest : List JValue → List Char
  | [] => []
  | x :: xs => ',' :: ' ' :: (dumpVal x ++ dumpRest xs)
/-- Rendering of the remaining members of an object. -/
def dumpRestKV : List (String × JValue) → List Char
  | [] => []
  | (k, v) :: kvs => ',' :: ' ' :: (encString k ++ ':' :: ' ' :: (dumpVal v ++ dumpRestKV kvs))
end

/-! ## The Response Normalizer (`analyze_code_with_llm`, `main.py` 192–237)

The function's LLM call is an external boundary; the normalization stage is
a pure function of the response text `response.text` and the caller-supplied
language hint, embedded here stage by stage. -/

/-- The triple-backtick fence delimiter. -/
def fenceDelim : List Char := ['\x60', '\x60', '\x60']

/-- The fence delimiter with a `json` language tag. -/
def fenceJsonTag : List Char := ['\x60', '\x60', '\x60', 'j', 's', 'o', 'n']

/-- Lines 195–198: if the text starts with a fence, drop the first and last
line (when there are more than two), then delete every occurrence of the
tag and of the bare delimiter, then strip. -/
def stripFences (text : List Char) : List Char :=
  if leadsWith fenceDelim text then
    stripChars (pyReplaceList (pyReplaceList
      (if (splitNl text).length > 2 then joinNl (((splitNl text).drop 1).dropLast) else text)
      fenceJsonTag []) fenceDelim [])
  else text

/-- Line 192 (`response.text.strip()`) followed by fence stripping. -/
def preprocessResponse (raw : List Char) : List Char :=
  stripFences (stripChars raw)

/-- Lines 200–202: slice from the first `'\x7b'` to the last `'\x7d'`
inclusive; when no opening brace exists the candidate is `"\x7b\x7d"`. -/
def extractCandidate (text : List Char) : List Char :=
  match findChar text '\x7b' with
  | none => ['\x7b', '\x7d']
  | some s => pySlice text s (rfindEnd text '\x7d')

/-- The JSON candidate produced from a raw response text (lines 192–202). -/
def candidateOf (raw : String) : List Char :=
  extractCandidate (preprocessResponse raw.toList)

/-- Lines 209–211: a dict element is kept as-is, any other element becomes
`\x7b"type": "general", "description": str(s)\x7d`. -/
def coerceSuggestion (s : JValue) : JValue :=
  match s with
  | .obj f => .obj f
  | v => .obj [("type", .str "general"), ("description", .str (pyStr v))]

/-- Lines 217–219: a dict element is kept as-is, any other element becomes
`\x7b"severity": "medium", "description": str(i)\x7d`. -/
def coerceIssue (i : JValue) : JValue :=
  match i with
  | .obj f => .obj f
  | v => .obj [("severity", .str "medium"), ("description", .str (pyStr v))]

/-- Lines 208–214: if `suggestions` is present and a list, coerce each
element; otherwise assign `[]`. -/
def coerceSuggestionsStep (result : List (String × JValue)) : List (String × JValue) :=
  match dictGet result "suggestions" with
  | some (.arr l) => dictSet result "suggestions" (.arr (l.map coerceSuggestion))
  | _ => dictSet result "suggestions" (.arr [])

/-- Lines 216–222: the same for `issues`. -/
def coerceIssuesStep (result : List (String × JValue)) : List (String × JValue) :=
  match dictGet result "issues" with
  | some (.arr l) => dictSet result "issues" (.arr (l.map coerceIssue))
  | _ => dictSet result "issues" (.arr [])

/-- Lines 207–222: both coercion statements in source order. -/
def coerceFields (result : List (String × JValue)) : List (String × JValue) :=
  coerceIssuesStep (coerceSuggestionsStep result)

/-- Python's `language or "Unknown"` on the optional hint; the empty string
is falsy in Python, hence also mapped to `"Unknown"`. -/
def langOrUnknown : Option String → String
  | none => "Unknown"
  | some s => if s = "" then "Unknown" else s

/-- Lines 229–237: the record synthesized when the candidate fails to parse. -/
def fallbackRecord (language : Option String) : List (String × JValue) :=
  [("language", .str (langOrUnknown language)),
   ("review_summary", .str "Could not parse Gemini output."),
   ("readability_score", .int 5),
   ("modularity_score", .int 5),
   ("bug_risk_score", .int 5),
   ("suggestions", .arr []),
   ("issues", .arr [])]

/-- The normalization stage of `analyze_code_with_llm` (lines 192–237) as a
function of the language hint and the LLM response text.  A parse failure is
absorbed into the fallback record.  A successful parse always yields a dict
(the candidate starts with `'\x7b'`, proved in `analyze_total_shape`); the
`.error` branch models the `TypeError` Python would raise on a non-dict
(`result['suggestions']` on a list) — that error would escape the inner
`except json.JSONDecodeError` — and is provably unreachable. -/
def analyze_code_with_llm (language : Option String) (responseText : String) :
    Except String (List (String × JValue)) :=
  match jparseL (candidateOf responseText) with
  | none => .ok (fallbackRecord language)
  | some (.obj m) => .ok (coerceFields m)
  | some _ => .error "TypeError"

/-! ## Persistence models (`save_review_to_db`, 110–139 and `get_review`,
313–329, plus the `ReviewResponse` validator, 71–94) -/

/-- A stored `reviews` row, minus the store-assigned `id`/`created_at`
metadata (assigned at insert time, not part of the fields that round-trip).
sqlite columns are dynamically typed, so the scalar columns hold whatever
scalar was bound (`JValue` here); `suggestions`/`issues` hold the
`json.dumps` text. -/
structure Row where
  filename : String
  file_hash : String
  language : JValue
  lines_of_code : Nat
  review_summary : JValue
  readability_score : JValue
  modularity_score : JValue
  bug_risk_score : JValue
  suggestions : String
  issues : String

/-- sqlite3 parameter binding: `None`, `int` (including `bool`, an `int`
subclass, stored as 0/1), and `str` bind; a `list` or `dict` parameter
raises `InterfaceError`. -/
def sqliteBind : JValue → Except String JValue
  | .null => .ok .null
  | .bool b => .ok (.int (if b then 1 else 0))
  | .int n => .ok (.int n)
  | .str s => .ok (.str s)
  | _ => .error "InterfaceError"

/-- Line 115: `len([l for l in code.split('\n') if l.strip()])`. -/
def linesOfCode (code : String) : Nat :=
  ((splitNl code.toList).filter (fun l => !(stripChars l).isEmpty)).length

/-- `save_review_to_db` (lines 110–139): the row inserted for an analysis
dict — scores default to `0` when absent, `language`/`review_summary`
default to `None`, `suggestions`/`issues` are `json.dumps`ed with `[]` as
default.  No clamping of any kind is performed. -/
def save_review_to_db (filename file_hash code : String)
    (analysis : List (String × JValue)) : Except String Row :=
  match sqliteBind ((dictGet analysis "language").getD .null),
      sqliteBind ((dictGet analysis "review_summary").getD .null),
      sqliteBind ((dictGet analysis "readability_score").getD (.int 0)),
      sqliteBind ((dictGet analysis "modularity_score").getD (.int 0)),
      sqliteBind ((dictGet analysis "bug_risk_score").getD (.int 0)) with
  | .ok lang, .ok summ, .ok r, .ok m, .ok b =>
    .ok { filename := filename, file_hash := file_hash, language := lang,
          lines_of_code := linesOfCode code,
          review_summary := summ, readability_score := r,
          modularity_score := m, bug_risk_score := b,
          suggestions := String.mk (dumpVal ((dictGet analysis "suggestions").getD (.arr []))),
          issues := String.mk (dumpVal ((dictGet analysis "issues").getD (.arr []))) }
  | _, _, _, _, _ => .error "InterfaceError"

/-- The `ReviewResponse` field validator `parse_json_and_normalize` (lines
71–94): parse a string input as JSON (`[]` on failure), replace any
non-list by `[]`, keep dict elements, wrap string elements as
`\x7b"description": s\x7d`, and drop everything else.  The result is always
a list of dicts, so pydantic's `List[dict]` check then passes. -/
def parse_json_and_normalize (v : JValue) : List (List (String × JValue)) :=
  let v1 :=
    match v with
    | .str s =>
      match jparseL s.toList with
      | some w => w
      | none => .arr []
    | w => w
  match v1 with
  | .arr l =>
    l.foldr
      (fun x acc =>
        match x with
        | .obj f => f :: acc
        | .str s => [("description", JValue.str s)] :: acc
        | _ => acc)
      []
  | _ => []

/-- The response a `GET /reviews/id` produces, i.e. a validated
`ReviewResponse` minus the store-assigned `id`/`created_at`.  `suggestions`
and `issues` are lists of dicts after validation. -/
structure ReviewOut where
  filename : String
  language : Option String
  lines_of_code : Nat
  review_summary : String
  readability_score : Int
  modularity_score : Int
  bug_risk_score : Int
  suggestions : List (List (String × JValue))
  issues : List (List (String × JValue))

/-- pydantic validation of `language : Optional[str]`. -/
def fieldOptStr : JValue → Except String (Option String)
  | .null => .ok none
  | .str s => .ok (some s)
  | _ => .error "ValidationError"

/-- pydantic validation of a required `str` field. -/
def fieldStr : JValue → Except String String
  | .str s => .ok s
  | _ => .error "ValidationError"

/-- pydantic validation of an `int` field (pydantic v2 rejects other types). -/
def fieldInt : JValue → Except String Int
  | .int n => .ok n
  | _ => .error "ValidationError"

/-- `get_review` (lines 313–329) applied to a stored row: `json.loads` the
two serialized columns (a decode error would propagate), then build the
`ReviewResponse`, whose validator normalizes the two lists and whose field
types are checked. -/
def get_review (row : Row) : Except String ReviewOut :=
  match jparseL row.suggestions.toList, jparseL row.issues.toList with
  | some sv, some iv =>
    match fieldOptStr row.language, fieldStr row.review_summary,
        fieldInt row.readability_score, fieldInt row.modularity_score,
        fieldInt row.bug_risk_score with
    | .ok lang, .ok summ, .ok r, .ok m, .ok b =>
      .ok { filename := row.filename, language := lang,
            lines_of_code := row.lines_of_code, review_summary := summ,
            readability_score := r, modularity_score := m, bug_risk_score := b,
            suggestions := parse_json_and_normalize sv,
            issues := parse_json_and_normalize iv }
    | _, _, _, _, _ => .error "ValidationError"
  | _, _ => .error "JSONDecodeError"

/-! ## Auxiliary predicates used by the theorems -/

/-- Pairwise distinctness of a key list. -/
def keysNodupB : List String → Bool
  | [] => true
  | k :: r => !r.contains k && keysNodupB r

mutual
/-- Serializability invariant: every object inside the value has pairwise
distinct keys (Python dicts guarantee this for every value `json.loads`
produces and every dict the pipeline constructs). -/
def wfB : JValue → Bool
  | .null => true
  | .bool _ => true
  | .int _ => true
  | .str _ => true
  | .arr l => wfListB l
  | .obj f => keysNodupB (f.map Prod.fst) && wfFieldsB f
/-- `wfB` on every element. -/
def wfListB : List JValue → Bool
  | [] => true
  | x :: xs => wfB x && wfListB xs
/-- `wfB` on every field value. -/
def wfFieldsB : List (String × JValue) → Bool
  | [] => true
  | (_, v) :: r => wfB v && wfFieldsB r
end

/-- Whether every element of a list is a JSON object. -/
def allObjB : List JValue → Bool
  | [] => true
  | .obj _ :: xs => allObjB xs
  | _ => false

/-- Whether a stored score value is an integer in `[0, 10]`. -/
def scoreInRangeB : JValue → Bool
  | .int n => decide (0 ≤ n) && decide (n ≤ 10)
  | _ => false

/-- Whether an analysis dict's score field is absent or an integer in
`[0, 10]`. -/
def scoreFieldOk (analysis : List (String × JValue)) (key : String) : Bool :=
  match dictGet analysis key with
  | none => true
  | some v => scoreInRangeB v

/-- The fenced wrapping used by claim C8: a triple-backtick block with a
leading `json` language-tag line. -/
def wrapFence (t : String) : String :=
  "```json\n" ++ t ++ "\n```"

/-- Whether a character list starts with a decimal digit (the only
look-ahead the number-parsing lemmas need about what follows a literal). -/
def isDigitHead : List Char → Bool
  | [] => false
  | c :: _ => (digitVal c).isSome

mutual
/-- Fuel bound sufficient to parse a serialized value (one unit per
bracket-nesting step). -/
def jsize : JValue → Nat
  | .null => 1
  | .bool _ => 1
  | .int _ => 1
  | .str _ => 1
  | .arr l => 1 + jsizeList l
  | .obj f => 1 + jsizeFields f
/-- `jsize` summed over array items. -/
def jsizeList : List JValue → Nat
  | [] => 0
  | x :: xs => 1 + jsize x + jsizeList xs
/-- `jsize` summed over object members. -/
def jsizeFields : List (String × JValue) → Nat
  | [] => 0
  | (_, v) :: kvs => 1 + jsize v + jsizeFields kvs
end

/-- The optional-string view of a stored scalar (used to state how a stored
`language` column reads back through `fieldOptStr`). -/
def jvToOptStr : JValue → Option String
  | .str s => some s
  | _ => none

/-! # Lemmas and claim theorems -/

/-! ## Dict lemmas -/

theorem dictGet_dictSet_self (m : List (String × JValue)) (k : String) (v : JValue) :
    dictGet (dictSet m k v) k = some v := by
  induction m with
  | nil => simp [dictSet, dictGet]
  | cons h t ih =>
    obtain ⟨k', v'⟩ := h
    by_cases hk : k' = k
    · simp [dictSet, dictGet, hk]
    · simp [dictSet, dictGet, hk, ih]

theorem dictGet_dictSet_ne (m : List (String × JValue)) (k k' : String) (v : JValue)
    (h : k ≠ k') : dictGet (dictSet m k v) k' = dictGet m k' := by
  induction m with
  | nil => simp [dictSet, dictGet, h]
  | cons hd t ih =>
    obtain ⟨k2, v2⟩ := hd
    by_cases hk : k2 = k
    · subst hk; simp [dictSet, dictGet, h]
    · simp [dictSet, dictGet, hk, ih]

/-! ## Parser shape lemmas: a successful parse of a brace-headed candidate
is an object -/

theorem parseMembers_obj (fuel : Nat) :
    ∀ (acc : List (String × JValue)) (l : List Char) (v : JValue) (r : List Char),
      parseMembers fuel acc l = some (v, r) → ∃ m, v = JValue.obj m := by
  induction fuel with
  | zero => intro acc l v r h; exact absurd h (by simp [parseMembers])
  | succ n ih =>
    intro acc l v r h
    simp only [parseMembers] at h
    split at h
    · split at h
      · exact absurd h (by simp)
      · split at h
        · split at h
          · exact absurd h (by simp)
          · split at h
            · exact ih _ _ _ _ h
            · exact ⟨_, by cases h; rfl⟩
            · exact absurd h (by simp)
        · exact absurd h (by simp)
    · exact absurd h (by simp)

theorem parseValue_brace (fuel : Nat) (r : List Char) (v : JValue) (rest : List Char)
    (h : parseValue fuel ('\x7b' :: r) = some (v, rest)) : ∃ m, v = JValue.obj m := by
  cases fuel with
  | zero => exact absurd h (by simp [parseValue])
  | succ n =>
    have h' : (match skipJWs r with
        | [] => parseMembers n [] []
        | c2 :: r2 =>
          if c2 = '\x7d' then some (JValue.obj [], r2)
          else parseMembers n [] (c2 :: r2)) = some (v, rest) := h
    split at h'
    · exact parseMembers_obj n _ _ _ _ h'
    · split at h'
      · exact ⟨[], by cases h'; rfl⟩
      · exact parseMembers_obj n _ _ _ _ h'

theorem jparseL_obj_of_brace (r : List Char) (v : JValue)
    (h : jparseL ('\x7b' :: r) = some v) : ∃ m, v = JValue.obj m := by
  have h' : (match parseValue (('\x7b' :: r).length + 1) ('\x7b' :: r) with
      | some (w, rest) => if (skipJWs rest).isEmpty then some w else none
      | none => none) = some v := h
  cases hp : parseValue (('\x7b' :: r).length + 1) ('\x7b' :: r) with
  | none => rw [hp] at h'; exact absurd h' (by simp)
  | some p =>
    obtain ⟨w, prest⟩ := p
    rw [hp] at h'
    obtain ⟨m, rfl⟩ := parseValue_brace _ _ _ _ hp
    refine ⟨m, ?_⟩
    cases hb : (skipJWs prest).isEmpty with
    | false => simp [hb] at h'
    | true => simp [hb] at h'; exact h'.symm

theorem jparseL_nil : jparseL [] = none := rfl

/-! ## Candidate shape: the extracted candidate is empty or starts with a
brace -/

theorem findChar_drop (l : List Char) (c : Char) :
    ∀ i, findChar l c = some i → l.drop i = c :: l.drop (i + 1) := by
  induction l with
  | nil => intro i h; simp [findChar] at h
  | cons a t ih =>
    intro i h
    simp only [findChar] at h
    by_cases hac : a = c
    · simp only [hac, if_pos rfl] at h
      cases h
      simp [hac]
    · simp only [if_neg hac, Option.map_eq_some'] at h
      obtain ⟨j, hj, rfl⟩ := h
      simpa using ih j hj

theorem extractCandidate_shape (t : List Char) :
    extractCandidate t = [] ∨ ∃ r, extractCandidate t = '\x7b' :: r := by
  unfold extractCandidate
  cases hf : findChar t '\x7b' with
  | none => exact Or.inr ⟨['\x7d'], rfl⟩
  | some s =>
    have hd := findChar_drop t '\x7b' s hf
    dsimp only
    unfold pySlice
    rw [hd]
    rcases he : rfindEnd t '\x7d' - s with _ | k
    · exact Or.inl (by simp)
    · exact Or.inr ⟨(t.drop (s + 1)).take k, by simp⟩

/-! ## Coercion output shape -/

theorem coerceIssuesStep_issues (m : List (String × JValue)) :
    ∃ li, dictGet (coerceIssuesStep m) "issues" = some (JValue.arr li) := by
  unfold coerceIssuesStep
  split
  · exact ⟨_, dictGet_dictSet_self _ _ _⟩
  · exact ⟨[], dictGet_dictSet_self _ _ _⟩

theorem coerceIssuesStep_other (m : List (String × JValue)) (k : String)
    (h : k ≠ "issues") : dictGet (coerceIssuesStep m) k = dictGet m k := by
  unfold coerceIssuesStep
  split <;> exact dictGet_dictSet_ne _ _ _ _ (fun he => h he.symm)

theorem coerceSuggestionsStep_suggestions (m : List (String × JValue)) :
    ∃ ls, dictGet (coerceSuggestionsStep m) "suggestions" = some (JValue.arr ls) := by
  unfold coerceSuggestionsStep
  split
  · exact ⟨_, dictGet_dictSet_self _ _ _⟩
  · exact ⟨[], dictGet_dictSet_self _ _ _⟩

theorem coerceFields_lists (m : List (String × JValue)) :
    (∃ ls, dictGet (coerceFields m) "suggestions" = some (JValue.arr ls)) ∧
    (∃ li, dictGet (coerceFields m) "issues" = some (JValue.arr li)) := by
  constructor
  · obtain ⟨ls, hls⟩ := coerceSuggestionsStep_suggestions m
    exact ⟨ls, by
      rw [coerceFields, coerceIssuesStep_other _ _ (by decide)]
      exact hls⟩
  · exact coerceIssuesStep_issues _

/-- C1 (amended): for every language hint and every LLM response text, the
normalization stage of `analyze_code_with_llm` terminates without raising
(returns `.ok`, never the modelled `TypeError`) and its result maps
`suggestions` and `issues` to list values.  (The three scores are present on
the fallback path but, contrary to the claim as stated, not on a successful
parse — see the counterexample.) -/
theorem C1_normalize_total_list_shaped (language : Option String) (t : String) :
    ∃ m, analyze_code_with_llm language t = Except.ok m ∧
      (∃ ls, dictGet m "suggestions" = some (JValue.arr ls)) ∧
      (∃ li, dictGet m "issues" = some (JValue.arr li)) := by
  unfold analyze_code_with_llm
  cases hp : jparseL (candidateOf t) with
  | none => exact ⟨fallbackRecord language, rfl, ⟨[], rfl⟩, ⟨[], rfl⟩⟩
  | some v =>
    have hobj : ∃ m, v = JValue.obj m := by
      rcases extractCandidate_shape (preprocessResponse t.toList) with hc | ⟨r, hc⟩
      · unfold candidateOf at hp
        rw [hc, jparseL_nil] at hp
        cases hp
      · unfold candidateOf at hp
        rw [hc] at hp
        exact jparseL_obj_of_brace r v hp
    obtain ⟨m, rfl⟩ := hobj
    exact ⟨coerceFields m, rfl, coerceFields_lists m⟩

/-- C1 counterexample: on the well-formed response `"\x7b\x7d"` the
normalization succeeds, but the returned mapping contains no
`readability_score` (nor the other scores), refuting the claim that the
three scores are always present. -/
theorem C1_counterexample :
    analyze_code_with_llm none "\x7b\x7d" =
      Except.ok [("suggestions", JValue.arr []), ("issues", JValue.arr [])] ∧
    dictGet [("suggestions", JValue.arr []), ("issues", JValue.arr [])]
      "readability_score" = none :=
  ⟨rfl, rfl⟩

/-- C2: whenever the extracted candidate fails to parse as JSON, the
normalization returns `.ok` with exactly the fallback record: `language` is
the caller hint (or `"Unknown"` when the hint is absent or empty, Python's
`or`), `review_summary` is the fixed sentinel, all three scores are `5`,
and `suggestions`/`issues` are empty lists; the parse error never
propagates. -/
theorem C2_parse_failure_fallback (language : Option String) (t : String)
    (h : jparseL (candidateOf t) = none) :
    analyze_code_with_llm language t = Except.ok (fallbackRecord language) ∧
    dictGet (fallbackRecord language) "review_summary" =
      some (JValue.str "Could not parse Gemini output.") ∧
    dictGet (fallbackRecord language) "readability_score" = some (JValue.int 5) ∧
    dictGet (fallbackRecord language) "modularity_score" = some (JValue.int 5) ∧
    dictGet (fallbackRecord language) "bug_risk_score" = some (JValue.int 5) ∧
    dictGet (fallbackRecord language) "suggestions" = some (JValue.arr []) ∧
    dictGet (fallbackRecord language) "issues" = some (JValue.arr []) ∧
    dictGet (fallbackRecord language) "language" =
      some (JValue.str (langOrUnknown language)) ∧
    (language = none → langOrUnknown language = "Unknown") ∧
    (∀ s, language = some s → s ≠ "" → langOrUnknown language = s) := by
  refine ⟨?_, rfl, rfl, rfl, rfl, rfl, rfl, rfl, ?_, ?_⟩
  · unfold analyze_code_with_llm
    rw [h]
  · intro hl; subst hl; rfl
  · intro s hs hne; subst hs; simp [langOrUnknown, hne]

/-- C2 witness: the truncated response `"\x7b"` yields an unparseable empty
candidate slice and hence the fallback record. -/
theorem C2_witness :
    jparseL (candidateOf "\x7b") = none ∧
    analyze_code_with_llm (some "Python") "\x7b" =
      Except.ok (fallbackRecord (some "Python")) :=
  ⟨rfl, (C2_parse_failure_fallback (some "Python") "\x7b" rfl).1⟩

/-! ## Field-coercion lemmas -/

theorem analyze_of_parse_obj (language : Option String) (t : String)
    (m : List (String × JValue))
    (hp : jparseL (candidateOf t) = some (JValue.obj m)) :
    analyze_code_with_llm language t = Except.ok (coerceFields m) := by
  unfold analyze_code_with_llm
  rw [hp]

theorem coerceSuggestionsStep_other (m : List (String × JValue)) (k : String)
    (h : k ≠ "suggestions") :
    dictGet (coerceSuggestionsStep m) k = dictGet m k := by
  unfold coerceSuggestionsStep
  split <;> exact dictGet_dictSet_ne _ _ _ _ (fun he => h he.symm)

theorem coerceFields_suggestions_of_list (m : List (String × JValue)) (l : List JValue)
    (h : dictGet m "suggestions" = some (JValue.arr l)) :
    dictGet (coerceFields m) "suggestions" =
      some (JValue.arr (l.map coerceSuggestion)) := by
  rw [coerceFields, coerceIssuesStep_other _ _ (by decide)]
  unfold coerceSuggestionsStep
  rw [h]
  exact dictGet_dictSet_self _ _ _

theorem coerceFields_issues_of_list (m : List (String × JValue)) (l : List JValue)
    (h : dictGet m "issues" = some (JValue.arr l)) :
    dictGet (coerceFields m) "issues" = some (JValue.arr (l.map coerceIssue)) := by
  rw [coerceFields]
  unfold coerceIssuesStep
  rw [coerceSuggestionsStep_other _ _ (by decide), h]
  exact dictGet_dictSet_self _ _ _

/-- C4 (amended): every plain-string element of a parsed `suggestions` list
is wrapped into `\x7b"type": "general", "description": s\x7d` — the
`description` equals the string, but the wrapped mapping also carries the
extra `"type": "general"` entry, so it is not *exactly* the minimal shape
the claim states. -/
theorem C4_string_suggestions_wrapped (language : Option String) (t : String)
    (m : List (String × JValue)) (l : List JValue)
    (hp : jparseL (candidateOf t) = some (JValue.obj m))
    (hsug : dictGet m "suggestions" = some (JValue.arr l)) :
    (∃ m', analyze_code_with_llm language t = Except.ok m' ∧
       dictGet m' "suggestions" = some (JValue.arr (l.map coerceSuggestion))) ∧
    ∀ s : String, coerceSuggestion (JValue.str s) =
      JValue.obj [("type", JValue.str "general"), ("description", JValue.str s)] :=
  ⟨⟨coerceFields m, analyze_of_parse_obj language t m hp,
    coerceFields_suggestions_of_list m l hsug⟩, fun _ => rfl⟩

/-- C4 witness: `suggestions: ["foo", "bar"]` yields two wrapped entries
whose `description` fields are `"foo"` and `"bar"`. -/
theorem C4_witness :
    jparseL (candidateOf "\x7b\"suggestions\": [\"foo\", \"bar\"]\x7d") =
      some (JValue.obj
        [("suggestions", JValue.arr [JValue.str "foo", JValue.str "bar"])]) ∧
    analyze_code_with_llm none "\x7b\"suggestions\": [\"foo\", \"bar\"]\x7d" =
      Except.ok
        [("suggestions", JValue.arr
          [JValue.obj [("type", JValue.str "general"), ("description", JValue.str "foo")],
           JValue.obj [("type", JValue.str "general"), ("description", JValue.str "bar")]]),
         ("issues", JValue.arr [])] ∧
    coerceSuggestion (JValue.str "foo") =
      JValue.obj [("type", JValue.str "general"), ("description", JValue.str "foo")] ∧
    coerceSuggestion (JValue.str "bar") =
      JValue.obj [("type", JValue.str "general"), ("description", JValue.str "bar")] :=
  ⟨rfl, rfl,
   (C4_string_suggestions_wrapped none "\x7b\"suggestions\": [\"foo\", \"bar\"]\x7d"
      [("suggestions", JValue.arr [JValue.str "foo", JValue.str "bar"])]
      [JValue.str "foo", JValue.str "bar"] rfl rfl).2 "foo",
   (C4_string_suggestions_wrapped none "\x7b\"suggestions\": [\"foo\", \"bar\"]\x7d"
      [("suggestions", JValue.arr [JValue.str "foo", JValue.str "bar"])]
      [JValue.str "foo", JValue.str "bar"] rfl rfl).2 "bar"⟩

/-- C4 counterexample: the wrapped entry for `"foo"` is not exactly the
minimal shape `\x7b"description": "foo"\x7d`: it carries the extra
`"type": "general"` entry. -/
theorem C4_counterexample :
    analyze_code_with_llm none "\x7b\"suggestions\": [\"foo\"]\x7d" =
      Except.ok
        [("suggestions", JValue.arr
          [JValue.obj [("type", JValue.str "general"), ("description", JValue.str "foo")]]),
         ("issues", JValue.arr [])] ∧
    JValue.obj [("type", JValue.str "general"), ("description", JValue.str "foo")] ≠
      JValue.obj [("description", JValue.str "foo")] :=
  ⟨rfl, by simp⟩

/-- C5 (amended): elements of a parsed `suggestions`/`issues` list that are
neither mappings nor strings are *not* dropped: every non-mapping element
(string or not) is coerced through Python `str(...)` into the wrapped
shape, and the coerced list has the same length as the original. -/
theorem C5_nonstring_elements_coerced (language : Option String) (t : String)
    (m : List (String × JValue)) (l : List JValue)
    (hp : jparseL (candidateOf t) = some (JValue.obj m))
    (hsug : dictGet m "suggestions" = some (JValue.arr l)) :
    (∃ m', analyze_code_with_llm language t = Except.ok m' ∧
       dictGet m' "suggestions" = some (JValue.arr (l.map coerceSuggestion)) ∧
       (l.map coerceSuggestion).length = l.length) ∧
    (∀ v : JValue, (∀ f, v ≠ JValue.obj f) →
       coerceSuggestion v =
         JValue.obj [("type", JValue.str "general"),
                     ("description", JValue.str (pyStr v))]) ∧
    (∀ v : JValue, (∀ f, v ≠ JValue.obj f) →
       coerceIssue v =
         JValue.obj [("severity", JValue.str "medium"),
                     ("description", JValue.str (pyStr v))]) := by
  refine ⟨⟨coerceFields m, analyze_of_parse_obj language t m hp,
    coerceFields_suggestions_of_list m l hsug, by simp⟩, ?_, ?_⟩ <;>
    · intro v hv
      cases v <;> first | rfl | exact absurd rfl (hv _)

/-- C5 witness: the non-string, non-mapping elements `5` and `null` are
kept and coerced (via `str`) rather than dropped. -/
theorem C5_witness :
    jparseL (candidateOf "\x7b\"suggestions\": [5, null]\x7d") =
      some (JValue.obj [("suggestions", JValue.arr [JValue.int 5, JValue.null])]) ∧
    coerceSuggestion (JValue.int 5) =
      JValue.obj [("type", JValue.str "general"), ("description", JValue.str "5")] ∧
    coerceSuggestion JValue.null =
      JValue.obj [("type", JValue.str "general"), ("description", JValue.str "None")] :=
  ⟨rfl,
   (C5_nonstring_elements_coerced none "\x7b\"suggestions\": [5, null]\x7d"
      [("suggestions", JValue.arr [JValue.int 5, JValue.null])]
      [JValue.int 5, JValue.null] rfl rfl).2.1 (JValue.int 5) (fun _ h => by cases h),
   (C5_nonstring_elements_coerced none "\x7b\"suggestions\": [5, null]\x7d"
      [("suggestions", JValue.arr [JValue.int 5, JValue.null])]
      [JValue.int 5, JValue.null] rfl rfl).2.1 JValue.null (fun _ h => by cases h)⟩

/-- C5 counterexample: for `suggestions: [5]` the element `5` is neither a
mapping nor a string, yet the resulting list is not empty — the element was
stringified and kept, refuting "dropped". -/
theorem C5_counterexample :
    analyze_code_with_llm none "\x7b\"suggestions\": [5]\x7d" =
      Except.ok
        [("suggestions", JValue.arr
          [JValue.obj [("type", JValue.str "general"), ("description", JValue.str "5")]]),
         ("issues", JValue.arr [])] ∧
    JValue.arr
        [JValue.obj [("type", JValue.str "general"), ("description", JValue.str "5")]] ≠
      JValue.arr [] :=
  ⟨rfl, by simp⟩

/-- C6: every plain-string element of a parsed `issues` list is coerced
into a mapping with `severity = "medium"` and `description` equal to that
string. -/
theorem C6_string_issues_coerced (language : Option String) (t : String)
    (m : List (String × JValue)) (l : List JValue)
    (hp : jparseL (candidateOf t) = some (JValue.obj m))
    (hiss : dictGet m "issues" = some (JValue.arr l)) :
    (∃ m', analyze_code_with_llm language t = Except.ok m' ∧
       dictGet m' "issues" = some (JValue.arr (l.map coerceIssue))) ∧
    ∀ s : String, coerceIssue (JValue.str s) =
      JValue.obj [("severity", JValue.str "medium"), ("description", JValue.str s)] :=
  ⟨⟨coerceFields m, analyze_of_parse_obj language t m hp,
    coerceFields_issues_of_list m l hiss⟩, fun _ => rfl⟩

/-- C6 witness: for `issues: ["x"]` the single coerced issue has
`severity = "medium"` and `description = "x"`. -/
theorem C6_witness :
    jparseL (candidateOf "\x7b\"issues\": [\"x\"]\x7d") =
      some (JValue.obj [("issues", JValue.arr [JValue.str "x"])]) ∧
    analyze_code_with_llm none "\x7b\"issues\": [\"x\"]\x7d" =
      Except.ok
        [("issues", JValue.arr
          [JValue.obj [("severity", JValue.str "medium"), ("description", JValue.str "x")]]),
         ("suggestions", JValue.arr [])] ∧
    coerceIssue (JValue.str "x") =
      JValue.obj [("severity", JValue.str "medium"), ("description", JValue.str "x")] :=
  ⟨rfl, rfl,
   (C6_string_issues_coerced none "\x7b\"issues\": [\"x\"]\x7d"
      [("issues", JValue.arr [JValue.str "x"])] [JValue.str "x"] rfl rfl).2 "x"⟩

/-! ## Persistence lemmas -/

theorem save_fields (fn fh code : String) (a : List (String × JValue)) (row : Row)
    (h : save_review_to_db fn fh code a = Except.ok row) :
    sqliteBind ((dictGet a "language").getD .null) = Except.ok row.language ∧
    sqliteBind ((dictGet a "review_summary").getD .null) = Except.ok row.review_summary ∧
    sqliteBind ((dictGet a "readability_score").getD (.int 0)) =
      Except.ok row.readability_score ∧
    sqliteBind ((dictGet a "modularity_score").getD (.int 0)) =
      Except.ok row.modularity_score ∧
    sqliteBind ((dictGet a "bug_risk_score").getD (.int 0)) =
      Except.ok row.bug_risk_score ∧
    row.filename = fn ∧ row.file_hash = fh ∧ row.lines_of_code = linesOfCode code ∧
    row.suggestions = String.mk (dumpVal ((dictGet a "suggestions").getD (.arr []))) ∧
    row.issues = String.mk (dumpVal ((dictGet a "issues").getD (.arr []))) := by
  unfold save_review_to_db at h
  split at h
  · cases h
    refine ⟨?_, ?_, ?_, ?_, ?_, rfl, rfl, rfl, rfl, rfl⟩ <;> assumption
  · cases h

theorem bind_score_in_range (v : Option JValue) (w : JValue)
    (hv : (match v with | none => true | some x => scoreInRangeB x) = true)
    (hok : sqliteBind (v.getD (.int 0)) = Except.ok w) :
    scoreInRangeB w = true := by
  cases v with
  | none => cases hok; rfl
  | some x =>
    cases x with
    | int n =>
      have hw : w = JValue.int n := (Except.ok.inj hok).symm
      subst hw
      exact hv
    | null => simp [scoreInRangeB] at hv
    | bool b => simp [scoreInRangeB] at hv
    | str s => simp [scoreInRangeB] at hv
    | arr l => simp [scoreInRangeB] at hv
    | obj f => simp [scoreInRangeB] at hv

/-- C3 (amended): `save_review_to_db` performs no clamping — a missing
score is stored as `0` and a present value is stored unchanged.  Hence the
three stored scores lie in `[0, 10]` exactly when every score the parsed
model output supplies is already an integer in `[0, 10]` (absent scores
defaulting to the in-range `0`); out-of-range model values are stored
out of range (see the counterexample). -/
theorem C3_scores_defaulted_not_clamped (fn fh code : String)
    (a : List (String × JValue)) (row : Row)
    (hsave : save_review_to_db fn fh code a = Except.ok row)
    (hr : scoreFieldOk a "readability_score" = true)
    (hm : scoreFieldOk a "modularity_score" = true)
    (hb : scoreFieldOk a "bug_risk_score" = true) :
    scoreInRangeB row.readability_score = true ∧
    scoreInRangeB row.modularity_score = true ∧
    scoreInRangeB row.bug_risk_score = true := by
  obtain ⟨-, -, h1, h2, h3, -⟩ := save_fields fn fh code a row hsave
  unfold scoreFieldOk at hr hm hb
  exact ⟨bind_score_in_range _ _ hr h1, bind_score_in_range _ _ hm h2,
    bind_score_in_range _ _ hb h3⟩

/-- C3 witness: an analysis whose scores are in range is stored with all
three scores in range. -/
theorem C3_witness :
    save_review_to_db "a.py" "h" "x"
        [("readability_score", JValue.int 7), ("modularity_score", JValue.int 8),
         ("bug_risk_score", JValue.int 3)] =
      Except.ok { filename := "a.py", file_hash := "h", language := JValue.null,
                  lines_of_code := 1, review_summary := JValue.null,
                  readability_score := JValue.int 7, modularity_score := JValue.int 8,
                  bug_risk_score := JValue.int 3, suggestions := "[]", issues := "[]" } ∧
    scoreInRangeB (JValue.int 7) = true ∧ scoreInRangeB (JValue.int 8) = true ∧
    scoreInRangeB (JValue.int 3) = true :=
  ⟨rfl,
   C3_scores_defaulted_not_clamped "a.py" "h" "x"
     [("readability_score", JValue.int 7), ("modularity_score", JValue.int 8),
      ("bug_risk_score", JValue.int 3)]
     { filename := "a.py", file_hash := "h", language := JValue.null,
       lines_of_code := 1, review_summary := JValue.null,
       readability_score := JValue.int 7, modularity_score := JValue.int 8,
       bug_risk_score := JValue.int 3, suggestions := "[]", issues := "[]" }
     rfl rfl rfl rfl⟩

/-- C3 counterexample: a model output with `readability_score: 100` flows
through normalization and `save_review_to_db` unchanged — the stored score
is `100`, outside `[0, 10]`; nothing clamps it. -/
theorem C3_counterexample :
    (match analyze_code_with_llm none "\x7b\"readability_score\": 100\x7d" with
     | .ok a => save_review_to_db "a.py" "h" "x" a
     | .error e => .error e) =
      Except.ok { filename := "a.py", file_hash := "h", language := JValue.null,
                  lines_of_code := 1, review_summary := JValue.null,
                  readability_score := JValue.int 100, modularity_score := JValue.int 0,
                  bug_risk_score := JValue.int 0, suggestions := "[]", issues := "[]" } ∧
    scoreInRangeB (JValue.int 100) = false :=
  ⟨rfl, rfl⟩

/-- C10: when the analysis dict lacks a score field, `save_review_to_db`
stores `0` (not the fallback's `5`), and a missing `review_summary` or
`language` is stored as SQL `NULL`; the default path is exercised by the
well-formed model output `"\x7b\x7d"`, whose normalization carries no
scores at all. -/
theorem C10_missing_fields_default :
    (∀ (fn fh code : String) (a : List (String × JValue)) (row : Row),
       save_review_to_db fn fh code a = Except.ok row →
       (dictGet a "readability_score" = none → row.readability_score = JValue.int 0) ∧
       (dictGet a "modularity_score" = none → row.modularity_score = JValue.int 0) ∧
       (dictGet a "bug_risk_score" = none → row.bug_risk_score = JValue.int 0) ∧
       (dictGet a "review_summary" = none → row.review_summary = JValue.null) ∧
       (dictGet a "language" = none → row.language = JValue.null)) ∧
    analyze_code_with_llm none "\x7b\x7d" =
      Except.ok [("suggestions", JValue.arr []), ("issues", JValue.arr [])] ∧
    dictGet [("suggestions", JValue.arr []), ("issues", JValue.arr [])]
      "readability_score" = none ∧
    save_review_to_db "a.py" "h" "x"
        [("suggestions", JValue.arr []), ("issues", JValue.arr [])] =
      Except.ok { filename := "a.py", file_hash := "h", language := JValue.null,
                  lines_of_code := 1, review_summary := JValue.null,
                  readability_score := JValue.int 0, modularity_score := JValue.int 0,
                  bug_risk_score := JValue.int 0, suggestions := "[]", issues := "[]" } := by
  refine ⟨?_, rfl, rfl, rfl⟩
  intro fn fh code a row h
  obtain ⟨hl, hs, h1, h2, h3, -⟩ := save_fields fn fh code a row h
  refine ⟨fun hr => ?_, fun hm => ?_, fun hb => ?_, fun hsm => ?_, fun hlg => ?_⟩
  · rw [hr] at h1
    exact (Except.ok.inj h1).symm
  · rw [hm] at h2
    exact (Except.ok.inj h2).symm
  · rw [hb] at h3
    exact (Except.ok.inj h3).symm
  · rw [hsm] at hs
    exact (Except.ok.inj hs).symm
  · rw [hlg] at hl
    exact (Except.ok.inj hl).symm

/-- C10 witness: the `"\x7b\x7d"` analysis record, which lacks every score,
is stored with `readability_score = 0`. -/
theorem C10_witness :
    save_review_to_db "a.py" "h" "x"
        [("suggestions", JValue.arr []), ("issues", JValue.arr [])] =
      Except.ok { filename := "a.py", file_hash := "h", language := JValue.null,
                  lines_of_code := 1, review_summary := JValue.null,
                  readability_score := JValue.int 0, modularity_score := JValue.int 0,
                  bug_risk_score := JValue.int 0, suggestions := "[]", issues := "[]" } ∧
    ({ filename := "a.py", file_hash := "h", language := JValue.null,
       lines_of_code := 1, review_summary := JValue.null,
       readability_score := JValue.int 0, modularity_score := JValue.int 0,
       bug_risk_score := JValue.int 0, suggestions := "[]", issues := "[]" } : Row).readability_score =
      JValue.int 0 :=
  ⟨rfl,
   (C10_missing_fields_default.1 "a.py" "h" "x"
      [("suggestions", JValue.arr []), ("issues", JValue.arr [])]
      { filename := "a.py", file_hash := "h", language := JValue.null,
        lines_of_code := 1, review_summary := JValue.null,
        readability_score := JValue.int 0, modularity_score := JValue.int 0,
        bug_risk_score := JValue.int 0, suggestions := "[]", issues := "[]" }
      rfl).1 rfl⟩

/-! ## Boundary-extraction lemmas -/

theorem findChar_eq_none_of_not_mem (l : List Char) (c : Char) (h : ¬ c ∈ l) :
    findChar l c = none := by
  induction l with
  | nil => rfl
  | cons a t ih =>
    simp only [List.mem_cons, not_or] at h
    simp only [findChar]
    rw [if_neg (fun he => h.1 he.symm), ih h.2]
    rfl

theorem findChar_append_of_not_mem (a b : List Char) (c : Char) (h : ¬ c ∈ a) :
    findChar (a ++ b) c = (findChar b c).map (a.length + ·) := by
  induction a with
  | nil => cases hf : findChar b c <;> simp [hf]
  | cons x t ih =>
    simp only [List.mem_cons, not_or] at h
    show (if x = c then some 0 else (findChar (t ++ b) c).map (· + 1)) =
      (findChar b c).map ((x :: t).length + ·)
    rw [if_neg (fun he => h.1 he.symm), ih h.2]
    cases hf : findChar b c with
    | none => rfl
    | some v => simp [hf]; omega

theorem eq_append_of_getLast (l : List Char) (x : Char) (h : l.getLast? = some x) :
    ∃ l', l = l' ++ [x] := by
  induction l with
  | nil => cases h
  | cons a t ih =>
    cases t with
    | nil =>
      simp only [List.getLast?_singleton] at h
      cases h
      exact ⟨[], rfl⟩
    | cons b t2 =>
      obtain ⟨l', hl⟩ := ih (by simpa [List.getLast?_cons_cons] using h)
      exact ⟨a :: l', by simp [hl]⟩

/-- C7: boundary extraction on the fence-stripped text: when the text
contains no opening brace the candidate is exactly `"\x7b\x7d"`; and when
the text decomposes as `a ++ m ++ d` with no `'\x7b'` before `m`, `m`
starting at its first `'\x7b'` and ending at the last `'\x7d'`, and no
`'\x7d'` after it, the candidate is exactly the inclusive slice `m`. -/
theorem C7_boundary_extraction :
    (∀ t : List Char, ¬ '\x7b' ∈ t → extractCandidate t = ['\x7b', '\x7d']) ∧
    (∀ (a m d : List Char), ¬ '\x7b' ∈ a → ¬ '\x7d' ∈ d →
       m.head? = some '\x7b' → m.getLast? = some '\x7d' →
       extractCandidate (a ++ m ++ d) = m) := by
  constructor
  · intro t ht
    unfold extractCandidate
    rw [findChar_eq_none_of_not_mem t _ ht]
  · intro a m d ha hd hh hl
    obtain ⟨m1, rfl⟩ : ∃ m1, m = '\x7b' :: m1 := by
      cases m with
      | nil => cases hh
      | cons x t =>
        injection hh with hx
        subst hx
        exact ⟨t, rfl⟩
    obtain ⟨m2, hm2⟩ := eq_append_of_getLast _ _ hl
    have hfind : findChar (a ++ '\x7b' :: m1 ++ d) '\x7b' = some a.length := by
      rw [List.append_assoc, findChar_append_of_not_mem _ _ _ ha]
      simp [findChar]
    have hrev : (a ++ '\x7b' :: m1 ++ d).reverse =
        d.reverse ++ '\x7d' :: (m2.reverse ++ a.reverse) := by
      rw [hm2]
      simp
    have hrfind : rfindEnd (a ++ '\x7b' :: m1 ++ d) '\x7d' =
        a.length + ('\x7b' :: m1).length := by
      have hfc : findChar ('\x7d' :: (m2.reverse ++ a.reverse)) '\x7d' = some 0 := by
        simp [findChar]
      unfold rfindEnd
      rw [hrev, findChar_append_of_not_mem _ _ _ (by simpa using hd), hfc]
      simp only [Option.map_some']
      simp only [List.length_reverse, List.length_append, List.length_cons]
      omega
    unfold extractCandidate
    rw [hfind]
    dsimp only
    rw [hrfind]
    unfold pySlice
    rw [List.append_assoc, List.drop_left]
    have : a.length + ('\x7b' :: m1).length - a.length = ('\x7b' :: m1).length := by omega
    rw [this, List.take_left]

/-- C7 witness: a text without an opening brace yields the `"\x7b\x7d"`
candidate; a text with prose around a braced payload yields exactly the
inclusive first-`'\x7b'`-to-last-`'\x7d'` slice. -/
theorem C7_witness :
    extractCandidate ("no braces here".toList) = ['\x7b', '\x7d'] ∧
    extractCandidate ("ab".toList ++ "\x7b x \x7d".toList ++ "cd".toList) =
      "\x7b x \x7d".toList :=
  ⟨C7_boundary_extraction.1 "no braces here".toList (by decide),
   C7_boundary_extraction.2 "ab".toList "\x7b x \x7d".toList "cd".toList
     (by decide) (by decide) rfl rfl⟩

/-! ## Fence-stripping lemmas -/

theorem splitNl_ne_nil (l : List Char) : splitNl l ≠ [] := by
  cases l with
  | nil => simp [splitNl]
  | cons c rest =>
    unfold splitNl
    by_cases hc : c = '\n'
    · simp [hc]
    · simp only [if_neg hc]
      cases splitNl rest <;> simp

theorem joinNl_splitNl (l : List Char) : joinNl (splitNl l) = l := by
  induction l with
  | nil => rfl
  | cons c rest ih =>
    simp only [splitNl]
    by_cases hc : c = '\n'
    · subst hc
      simp only [if_pos rfl]
      cases hs : splitNl rest with
      | nil => exact absurd hs (splitNl_ne_nil rest)
      | cons y ys =>
        rw [hs] at ih
        show [] ++ '\n' :: joinNl (y :: ys) = '\n' :: rest
        simp [ih]
    · simp only [if_neg hc]
      cases hs : splitNl rest with
      | nil => exact absurd hs (splitNl_ne_nil rest)
      | cons y ys =>
        rw [hs] at ih
        cases ys with
        | nil =>
          show c :: y = c :: rest
          rw [show joinNl [y] = y from rfl] at ih
          rw [ih]
        | cons z zs =>
          show (c :: y) ++ '\n' :: joinNl (z :: zs) = c :: rest
          have hy : y ++ '\n' :: joinNl (z :: zs) = rest := ih
          simp [← hy]

theorem splitNl_append (a b : List Char) :
    splitNl (a ++ '\n' :: b) = splitNl a ++ splitNl b := by
  induction a with
  | nil => rfl
  | cons c rest ih =>
    show splitNl (c :: (rest ++ '\n' :: b)) = splitNl (c :: rest) ++ splitNl b
    simp only [splitNl]
    by_cases hc : c = '\n'
    · subst hc
      simp only [if_pos rfl]
      rw [ih]
      rfl
    · simp only [if_neg hc]
      rw [ih]
      cases hs : splitNl rest with
      | nil => exact absurd hs (splitNl_ne_nil rest)
      | cons y ys => simp

theorem splitNl_of_no_nl (l : List Char) (h : ¬ '\n' ∈ l) : splitNl l = [l] := by
  induction l with
  | nil => rfl
  | cons c rest ih =>
    simp only [List.mem_cons, not_or] at h
    unfold splitNl
    rw [if_neg (fun hc => h.1 hc.symm), ih h.2]

theorem leadsWith_append_r (p l b : List Char) (h : leadsWith p l = true) :
    leadsWith p (l ++ b) = true := by
  induction p generalizing l with
  | nil => rfl
  | cons pc ps ih =>
    cases l with
    | nil => cases h
    | cons c cs =>
      simp only [List.cons_append, leadsWith, Bool.and_eq_true] at h ⊢
      exact ⟨h.1, ih cs h.2⟩

theorem leadsWith_append_ext (p q l : List Char) (h : leadsWith (p ++ q) l = true) :
    leadsWith p l = true := by
  induction p generalizing l with
  | nil => rfl
  | cons pc ps ih =>
    cases l with
    | nil => cases h
    | cons c cs =>
      simp only [List.cons_append, leadsWith, Bool.and_eq_true] at h ⊢
      exact ⟨h.1, ih cs h.2⟩

theorem occursIn_append_right (pat a b : List Char) (h : occursIn pat b = true) :
    occursIn pat (a ++ b) = true := by
  induction a with
  | nil => simpa
  | cons x t ih =>
    show occursIn pat (x :: (t ++ b)) = true
    unfold occursIn
    rw [ih]
    simp

theorem occursIn_append_left (pat a b : List Char) (h : occursIn pat a = true) :
    occursIn pat (a ++ b) = true := by
  induction a with
  | nil =>
    have hp : pat = [] := by
      cases pat with
      | nil => rfl
      | cons x xs => simp [occursIn] at h
    subst hp
    cases b <;> simp [occursIn, leadsWith]
  | cons x t ih =>
    show occursIn pat (x :: (t ++ b)) = true
    unfold occursIn at h ⊢
    simp only [Bool.or_eq_true] at h
    rcases h with h1 | h2
    · rw [show leadsWith pat (x :: (t ++ b)) = true from leadsWith_append_r pat (x :: t) b h1]
      simp
    · rw [ih h2]
      simp

theorem occursIn_mono_pat (p q l : List Char) (h : occursIn (p ++ q) l = true) :
    occursIn p l = true := by
  induction l with
  | nil =>
    simp [occursIn, List.isEmpty_iff] at h ⊢
    simp [h.1]
  | cons c rest ih =>
    unfold occursIn at h ⊢
    simp only [Bool.or_eq_true] at h
    rcases h with h1 | h2
    · rw [leadsWith_append_ext p q _ h1]
      simp
    · rw [ih h2]
      simp

theorem leadsWith_occursIn (pat l : List Char) (h : leadsWith pat l = true)
    (hne : pat ≠ []) : occursIn pat l = true := by
  cases l with
  | nil =>
    cases pat with
    | nil => exact absurd rfl hne
    | cons a b => cases h
  | cons c rest =>
    unfold occursIn
    rw [h]
    simp

theorem pyReplaceAux_no_occ (old new : List Char) :
    ∀ (l : List Char) (fuel : Nat), l.length ≤ fuel → occursIn old l = false →
      pyReplaceAux fuel l old new = l := by
  intro l
  induction l with
  | nil => intro fuel _ _; cases fuel <;> rfl
  | cons c rest ih =>
    intro fuel hf ho
    cases fuel with
    | zero => simp at hf
    | succ f =>
      unfold occursIn at ho
      have hlw : leadsWith old (c :: rest) = false := by
        cases hx : leadsWith old (c :: rest) <;> simp_all
      have hor : occursIn old rest = false := by
        cases hx : occursIn old rest <;> simp_all
      unfold pyReplaceAux
      rw [hlw, Bool.and_false, if_neg (by simp)]
      rw [ih f (by simpa using hf) hor]

theorem pyReplace_no_occ (l old new : List Char) (h : occursIn old l = false) :
    pyReplaceList l old new = l :=
  pyReplaceAux_no_occ old new l l.length le_rfl h

theorem getLast_append_singleton {α : Type} (l : List α) (x : α) :
    (l ++ [x]).getLast? = some x := by
  induction l with
  | nil => rfl
  | cons a t ih =>
    cases t with
    | nil => rfl
    | cons b t2 =>
      rw [List.cons_append, List.cons_append, List.getLast?_cons_cons]
      exact ih

theorem dropLast_append_singleton {α : Type} (l : List α) (x : α) :
    (l ++ [x]).dropLast = l := by
  simp

theorem stripChars_eq_self (l : List Char)
    (h1 : ∀ c, l.head? = some c → pyWs c = false)
    (h2 : ∀ c, l.getLast? = some c → pyWs c = false) :
    stripChars l = l := by
  cases l with
  | nil => rfl
  | cons a t =>
    have ha : pyWs a = false := h1 a rfl
    unfold stripChars
    rw [List.dropWhile_cons, ha]
    simp only [Bool.false_eq_true, if_false]
    cases hgx : (a :: t).getLast? with
    | none => simp at hgx
    | some x =>
      have hx : pyWs x = false := h2 x hgx
      obtain ⟨l', hl'⟩ := eq_append_of_getLast _ _ hgx
      rw [hl', List.reverse_append]
      simp only [List.reverse_cons, List.reverse_nil, List.nil_append,
        List.singleton_append]
      rw [List.dropWhile_cons, hx]
      simp only [Bool.false_eq_true, if_false]
      rw [List.reverse_cons, List.reverse_reverse]

theorem occursIn_stripChars (pat l : List Char) (h : occursIn pat (stripChars l) = true) :
    occursIn pat l = true := by
  have hB : l.dropWhile pyWs =
      stripChars l ++ ((l.dropWhile pyWs).reverse.takeWhile pyWs).reverse := by
    unfold stripChars
    conv_lhs => rw [← List.reverse_reverse (l.dropWhile pyWs),
      ← List.takeWhile_append_dropWhile pyWs (l.dropWhile pyWs).reverse]
    rw [List.reverse_append]
  have h2 : occursIn pat (l.dropWhile pyWs) = true := by
    rw [hB]
    exact occursIn_append_left _ _ _ h
  have h3 : l = l.takeWhile pyWs ++ l.dropWhile pyWs :=
    (List.takeWhile_append_dropWhile pyWs l).symm
  rw [h3]
  exact occursIn_append_right _ _ _ h2

theorem strToList_append (s t : String) : (s ++ t).toList = s.toList ++ t.toList := by
  simp [String.toList]

theorem preprocess_wrapFence (t : String) (h : occursIn fenceDelim t.toList = false) :
    preprocessResponse (wrapFence t).toList = stripChars t.toList := by
  have hjson : occursIn fenceJsonTag t.toList = false := by
    cases hx : occursIn fenceJsonTag t.toList with
    | false => rfl
    | true =>
      exact absurd (occursIn_mono_pat fenceDelim ['j', 's', 'o', 'n'] t.toList hx)
        (by rw [h]; simp)
  have hwl : (wrapFence t).toList =
      "```json".toList ++ '\n' :: (t.toList ++ '\n' :: "```".toList) := by
    show ("```json\n" ++ t ++ "\n```").toList = _
    rw [strToList_append, strToList_append, List.append_assoc]
    rfl
  have hhead : ∀ c,
      ("```json".toList ++ '\n' :: (t.toList ++ '\n' :: "```".toList)).head? = some c →
      pyWs c = false := by
    intro c hc
    cases (show some '\x60' = some c from hc)
    rfl
  have hlast : ∀ c,
      ("```json".toList ++ '\n' :: (t.toList ++ '\n' :: "```".toList)).getLast? = some c →
      pyWs c = false := by
    intro c hc
    rw [show "```json".toList ++ '\n' :: (t.toList ++ '\n' :: "```".toList) =
        ("```json".toList ++ '\n' :: (t.toList ++ ['\n', '\x60', '\x60'])) ++ ['\x60'] by
      simp] at hc
    rw [getLast_append_singleton] at hc
    cases hc
    rfl
  have hsplit : splitNl ("```json".toList ++ '\n' :: (t.toList ++ '\n' :: "```".toList)) =
      ["```json".toList] ++ (splitNl t.toList ++ ["```".toList]) := by
    rw [splitNl_append, splitNl_append, splitNl_of_no_nl "```json".toList (by decide),
      splitNl_of_no_nl "```".toList (by decide)]
  have hnn := splitNl_ne_nil t.toList
  unfold preprocessResponse
  rw [hwl, stripChars_eq_self _ hhead hlast]
  unfold stripFences
  rw [if_pos (show leadsWith fenceDelim
      ("```json".toList ++ '\n' :: (t.toList ++ '\n' :: "```".toList)) = true from rfl)]
  rw [hsplit]
  rw [if_pos (by
    cases hs : splitNl t.toList with
    | nil => exact absurd hs hnn
    | cons y ys => simp)]
  rw [show ((["```json".toList] ++ (splitNl t.toList ++ ["```".toList])).drop 1).dropLast =
      splitNl t.toList from by
    rw [show (["```json".toList] ++ (splitNl t.toList ++ ["```".toList])).drop 1 =
        splitNl t.toList ++ ["```".toList] from rfl]
    exact dropLast_append_singleton _ _]
  rw [joinNl_splitNl]
  rw [pyReplace_no_occ t.toList fenceJsonTag [] hjson, pyReplace_no_occ t.toList fenceDelim [] h]

theorem preprocess_unfenced (t : String) (h : occursIn fenceDelim t.toList = false) :
    preprocessResponse t.toList = stripChars t.toList := by
  have hlw : leadsWith fenceDelim (stripChars t.toList) = false := by
    cases hx : leadsWith fenceDelim (stripChars t.toList) with
    | false => rfl
    | true =>
      have h1 : occursIn fenceDelim (stripChars t.toList) = true :=
        leadsWith_occursIn _ _ hx (by simp [fenceDelim])
      have h2 := occursIn_stripChars _ _ h1
      rw [h] at h2
      cases h2
  unfold preprocessResponse stripFences
  rw [if_neg (fun hc => by rw [hlw] at hc; cases hc)]

/-- C8 (amended): for every response text `t` that does not itself contain
the fence delimiter ```` ``` ````, wrapping `t` in a triple-backtick block
with a leading `json` language-tag line yields the same normalization
result as the unfenced `t` — fence stripping removes the delimiters and the
tag line without touching the payload.  (When `t` does contain ```` ``` ````,
the `replace` step also deletes it *inside* the payload and the results can
differ — see the counterexample.) -/
theorem C8_fence_wrap_equiv (language : Option String) (t : String)
    (h : occursIn fenceDelim t.toList = false) :
    analyze_code_with_llm language (wrapFence t) = analyze_code_with_llm language t := by
  unfold analyze_code_with_llm candidateOf
  rw [preprocess_wrapFence t h, preprocess_unfenced t h]

/-- C8 witness: a backtick-free payload parses identically fenced and
unfenced. -/
theorem C8_witness :
    occursIn fenceDelim ("\x7b\"a\": 1\x7d".toList) = false ∧
    analyze_code_with_llm none (wrapFence "\x7b\"a\": 1\x7d") =
      analyze_code_with_llm none "\x7b\"a\": 1\x7d" :=
  ⟨rfl, C8_fence_wrap_equiv none "\x7b\"a\": 1\x7d" rfl⟩

/-- C8 counterexample: a payload whose JSON contains the substring
```` ``` ```` inside a string literal is corrupted by the `replace` step:
fenced and unfenced runs disagree, refuting the claim for arbitrary `t`. -/
theorem C8_counterexample :
    analyze_code_with_llm none (wrapFence "\x7b\"a\": \"```\"\x7d") =
      Except.ok [("a", JValue.str ""), ("suggestions", JValue.arr []),
                 ("issues", JValue.arr [])] ∧
    analyze_code_with_llm none "\x7b\"a\": \"```\"\x7d" =
      Except.ok [("a", JValue.str "```"), ("suggestions", JValue.arr []),
                 ("issues", JValue.arr [])] ∧
    analyze_code_with_llm none (wrapFence "\x7b\"a\": \"```\"\x7d") ≠
      analyze_code_with_llm none "\x7b\"a\": \"```\"\x7d" := by
  refine ⟨rfl, rfl, ?_⟩
  intro he
  rw [show analyze_code_with_llm none (wrapFence "\x7b\"a\": \"```\"\x7d") =
      Except.ok [("a", JValue.str ""), ("suggestions", JValue.arr []),
                 ("issues", JValue.arr [])] from rfl,
    show analyze_code_with_llm none "\x7b\"a\": \"```\"\x7d" =
      Except.ok [("a", JValue.str "```"), ("suggestions", JValue.arr []),
                 ("issues", JValue.arr [])] from rfl] at he
  simp at he

/-! ## Number serialization round trip -/

theorem natDigitsRev_eq_digits : ∀ (fuel n : Nat), n ≤ fuel →
    natDigitsRev fuel n = Nat.digits 10 n := by
  intro fuel
  induction fuel with
  | zero =>
    intro n h
    obtain rfl : n = 0 := by omega
    simp [natDigitsRev]
  | succ f ih =>
    intro n h
    cases n with
    | zero => simp [natDigitsRev]
    | succ m =>
      rw [show natDigitsRev (f + 1) (m + 1) =
          ((m + 1) % 10) :: natDigitsRev f ((m + 1) / 10) from rfl]
      rw [ih ((m + 1) / 10) (by omega)]
      exact (Nat.digits_def' (by norm_num) (Nat.succ_pos m)).symm

theorem digitVal_digitChar (d : Nat) (h : d < 10) : digitVal (digitChar d) = some d := by
  interval_cases d <;> rfl

theorem digitChar_ne (d : Nat) (h : d < 10) :
    digitChar d ≠ '0' ∨ d = 0 := by
  interval_cases d <;> simp <;> decide

theorem digitChar_props (d : Nat) (h : d < 10) :
    digitChar d ≠ '-' ∧ jwsChar (digitChar d) = false ∧ digitChar d ≠ ']' ∧
    digitChar d ≠ '\x7d' ∧ digitChar d ≠ '\x7b' ∧ digitChar d ≠ '[' ∧
    digitChar d ≠ '"' ∧ digitChar d ≠ 'n' ∧ digitChar d ≠ 't' ∧ digitChar d ≠ 'f' := by
  interval_cases d <;> exact (by decide)

theorem grabDigits_spec : ∀ (D : List Nat) (acc : Nat) (rest : List Char),
    (∀ d ∈ D, d < 10) → isDigitHead rest = false →
    grabDigits acc (D.map digitChar ++ rest) =
      (D.foldl (fun a d => a * 10 + d) acc, rest) := by
  intro D
  induction D with
  | nil =>
    intro acc rest _ hrest
    cases rest with
    | nil => rfl
    | cons c r =>
      have hnone : digitVal c = none := by
        cases hd : digitVal c with
        | none => rfl
        | some d => simp [isDigitHead, hd] at hrest
      unfold grabDigits
      simp [hnone]
  | cons d D' ih =>
    intro acc rest hD hrest
    show grabDigits acc (digitChar d :: (D'.map digitChar ++ rest)) = _
    unfold grabDigits
    rw [digitVal_digitChar d (hD d (by simp))]
    exact ih _ _ (fun x hx => hD x (by simp [hx])) hrest

theorem foldl_base10 : ∀ (B : List Nat) (acc : Nat),
    B.foldl (fun a d => a * 10 + d) acc =
      acc * 10 ^ B.length + Nat.ofDigits 10 B.reverse := by
  intro B
  induction B with
  | nil => intro acc; simp
  | cons d B' ih =>
    intro acc
    show B'.foldl _ (acc * 10 + d) = _
    rw [ih, List.reverse_cons, Nat.ofDigits_append]
    simp [Nat.ofDigits_singleton]
    ring

theorem reverse_head_of_ne_nil {α : Type} (L : List α) (h : L ≠ []) :
    ∃ c cs, L.reverse = c :: cs ∧ c ∈ L := by
  cases hr : L.reverse with
  | nil =>
    rw [List.reverse_eq_nil_iff] at hr
    exact absurd hr h
  | cons c cs =>
    refine ⟨c, cs, rfl, ?_⟩
    have hm : c ∈ L.reverse := by rw [hr]; exact List.mem_cons_self _ _
    simpa using hm

theorem natSerialize_head (n : Nat) :
    ∃ d cs, d < 10 ∧ natSerialize n = digitChar d :: cs := by
  by_cases h0 : n = 0
  · subst h0
    exact ⟨0, [], by norm_num, rfl⟩
  · have hdig : natDigitsRev n n = Nat.digits 10 n := natDigitsRev_eq_digits n n le_rfl
    have hne : (Nat.digits 10 n).map digitChar ≠ [] := by
      simp [Nat.digits_ne_nil_iff_ne_zero.mpr h0]
    obtain ⟨c, cs, hr, hmem⟩ := reverse_head_of_ne_nil _ hne
    obtain ⟨d, hd, rfl⟩ := List.mem_map.mp hmem
    refine ⟨d, cs, Nat.digits_lt_base (by norm_num) hd, ?_⟩
    unfold natSerialize
    rw [if_neg h0, hdig, hr]

theorem parseNat_natSerialize (n : Nat) (rest : List Char) (h : isDigitHead rest = false) :
    parseNat (natSerialize n ++ rest) = some (n, rest) := by
  by_cases h0 : n = 0
  · subst h0
    rfl
  · have hdig : natDigitsRev n n = Nat.digits 10 n := natDigitsRev_eq_digits n n le_rfl
    have hne : Nat.digits 10 n ≠ [] := Nat.digits_ne_nil_iff_ne_zero.mpr h0
    obtain ⟨d0, B, hr, hmem⟩ := reverse_head_of_ne_nil _ hne
    have hd0 : d0 < 10 := Nat.digits_lt_base (by norm_num) hmem
    have hdigits : Nat.digits 10 n = B.reverse ++ [d0] := by
      have := congrArg List.reverse hr
      simpa using this
    have hd0ne : d0 ≠ 0 := by
      intro hz
      subst hz
      have hgl : (Nat.digits 10 n).getLast hne ≠ 0 := Nat.getLast_digit_ne_zero 10 h0
      have h1 : (Nat.digits 10 n).getLast? = some 0 := by
        rw [hdigits]
        exact getLast_append_singleton _ _
      rw [List.getLast?_eq_getLast _ hne] at h1
      exact hgl (Option.some.inj h1)
    have hser : natSerialize n = digitChar d0 :: B.map digitChar := by
      unfold natSerialize
      rw [if_neg h0, hdig, ← List.map_reverse, hr]
      rfl
    rw [hser]
    show parseNat (digitChar d0 :: (B.map digitChar ++ rest)) = some (n, rest)
    unfold parseNat
    dsimp only
    have hne0 : digitChar d0 ≠ '0' := by
      rcases digitChar_ne d0 hd0 with hc | hc
      · exact hc
      · exact absurd hc hd0ne
    rw [if_neg hne0, digitVal_digitChar d0 hd0]
    dsimp only
    have hB10 : ∀ x ∈ B, x < 10 := by
      intro x hx
      have hmem2 : x ∈ Nat.digits 10 n := by
        have hrev : x ∈ (Nat.digits 10 n).reverse := by rw [hr]; simp [hx]
        simpa using hrev
      exact Nat.digits_lt_base (by norm_num) hmem2
    rw [grabDigits_spec B d0 rest hB10 h]
    have hval : B.foldl (fun a d => a * 10 + d) d0 = n := by
      have h3 := foldl_base10 (d0 :: B) 0
      simp only [List.foldl_cons, Nat.zero_mul, Nat.zero_add] at h3
      rw [show (d0 :: B).reverse = Nat.digits 10 n from by
        rw [hdigits]; simp] at h3
      rw [Nat.ofDigits_digits] at h3
      simpa using h3
    rw [hval]

theorem intSerialize_head (n : Int) :
    ∃ c cs, intSerialize n = c :: cs ∧
      (c = '-' ∨ ∃ d, d < 10 ∧ c = digitChar d) := by
  by_cases hn : n < 0
  · exact ⟨'-', natSerialize n.natAbs, by unfold intSerialize; rw [if_pos hn], Or.inl rfl⟩
  · obtain ⟨d, cs, hd, hser⟩ := natSerialize_head n.natAbs
    refine ⟨digitChar d, cs, ?_, Or.inr ⟨d, hd, rfl⟩⟩
    unfold intSerialize
    rw [if_neg hn, hser]

theorem parseNumber_intSerialize (n : Int) (rest : List Char)
    (h : isDigitHead rest = false) :
    parseNumber (intSerialize n ++ rest) = some (JValue.int n, rest) := by
  by_cases hn : n < 0
  · rw [show intSerialize n = '-' :: natSerialize n.natAbs from by
      unfold intSerialize; rw [if_pos hn]]
    show parseNumber ('-' :: (natSerialize n.natAbs ++ rest)) = _
    unfold parseNumber
    dsimp only
    rw [if_pos rfl, parseNat_natSerialize _ _ h]
    simp only [Option.map_some']
    have : -(n.natAbs : Int) = n := by omega
    rw [this]
  · obtain ⟨d, cs, hd, hser⟩ := natSerialize_head n.natAbs
    have hsern : intSerialize n = natSerialize n.natAbs := by
      unfold intSerialize
      rw [if_neg hn]
    rw [hsern, hser]
    show parseNumber (digitChar d :: (cs ++ rest)) = _
    unfold parseNumber
    dsimp only
    rw [if_neg (digitChar_props d hd).1]
    rw [show digitChar d :: (cs ++ rest) = natSerialize n.natAbs ++ rest from by
      rw [hser]; rfl]
    rw [parseNat_natSerialize _ _ h]
    simp only [Option.map_some']
    have : (n.natAbs : Int) = n := by omega
    rw [this]

/-! ## String serialization round trip -/

theorem hexVal_hexDigitChar (d : Nat) (h : d < 16) : hexVal (hexDigitChar d) = some d := by
  interval_cases d <;> rfl

theorem hex4_toHex4 (n : Nat) (h : n < 0x10000) :
    hex4 (hexDigitChar (n / 4096 % 16)) (hexDigitChar (n / 256 % 16))
      (hexDigitChar (n / 16 % 16)) (hexDigitChar (n % 16)) = some n := by
  unfold hex4
  rw [hexVal_hexDigitChar _ (by omega), hexVal_hexDigitChar _ (by omega),
    hexVal_hexDigitChar _ (by omega), hexVal_hexDigitChar _ (by omega)]
  dsimp only
  congr 1
  omega

theorem psb_cons (fuel : Nat) (acc rest : List Char) (c : Char) :
    parseStringBody (fuel + 1) acc (c :: rest) =
      (if c = '"' then some (String.mk acc.reverse, rest)
       else if c = '\\' then
         (match decodeEscape rest with
          | some p => parseStringBody fuel (p.1 :: acc) p.2
          | none => none)
       else if 0x20 ≤ c.toNat then parseStringBody fuel (c :: acc) rest else none) := rfl

theorem decodeEscape_u (a b c d : Char) (r1 : List Char) :
    decodeEscape ('u' :: a :: b :: c :: d :: r1) = decodeU a b c d r1 := rfl

theorem decodeU_single (h1 h2 h3 h4 : Char) (r1 : List Char) (n : Nat)
    (hh : hex4 h1 h2 h3 h4 = some n)
    (hin : (decide (n < 0xd800) || decide (0xe000 ≤ n)) = true) :
    decodeU h1 h2 h3 h4 r1 = some (Char.ofNat n, r1) := by
  unfold decodeU
  simp only [hh]
  rw [if_pos hin]

theorem decodeU2_pair (n : Nat) (g1 g2 g3 g4 : Char) (r2 : List Char) (m : Nat)
    (hh : hex4 g1 g2 g3 g4 = some m)
    (hin : (decide (0xdc00 ≤ m) && decide (m < 0xe000)) = true) :
    decodeU2 n g1 g2 g3 g4 r2 =
      some (Char.ofNat (0x10000 + (n - 0xd800) * 0x400 + (m - 0xdc00)), r2) := by
  unfold decodeU2
  simp only [hh]
  rw [if_pos hin]

theorem decodeU_pair (h1 h2 h3 h4 g1 g2 g3 g4 : Char) (r2 : List Char) (n m : Nat)
    (hh : hex4 h1 h2 h3 h4 = some n) (hn1 : 0xd800 ≤ n) (hn2 : n < 0xdc00)
    (hg : hex4 g1 g2 g3 g4 = some m)
    (hm : (decide (0xdc00 ≤ m) && decide (m < 0xe000)) = true) :
    decodeU h1 h2 h3 h4 ('\\' :: 'u' :: g1 :: g2 :: g3 :: g4 :: r2) =
      some (Char.ofNat (0x10000 + (n - 0xd800) * 0x400 + (m - 0xdc00)), r2) := by
  unfold decodeU
  simp only [hh]
  rw [if_neg (by simp only [Bool.or_eq_true, decide_eq_true_eq]; push_neg; omega),
    if_pos hn2]
  rw [if_pos trivial, if_pos trivial]
  exact decodeU2_pair n g1 g2 g3 g4 r2 m hg hm

theorem parseStringBody_encChar (c : Char) (fuel : Nat) (acc tail : List Char) :
    parseStringBody (fuel + 1) acc (encChar c ++ tail) =
      parseStringBody fuel (c :: acc) tail := by
  by_cases h1 : c = '"'
  · subst h1; rfl
  by_cases h2 : c = '\\'
  · subst h2; rfl
  by_cases h3 : c = '\x08'
  · subst h3; rfl
  by_cases h4 : c = '\x0c'
  · subst h4; rfl
  by_cases h5 : c = '\n'
  · subst h5; rfl
  by_cases h6 : c = '\r'
  · subst h6; rfl
  by_cases h7 : c = '\t'
  · subst h7; rfl
  have henc : encChar c =
      (if 0x20 ≤ c.toNat && c.toNat ≤ 0x7e then [c]
       else if c.toNat < 0x10000 then '\\' :: 'u' :: toHex4 c.toNat
       else ('\\' :: 'u' :: toHex4 (0xd800 + (c.toNat - 0x10000) / 0x400)) ++
         ('\\' :: 'u' :: toHex4 (0xdc00 + (c.toNat - 0x10000) % 0x400))) := by
    unfold encChar
    rw [if_neg h1, if_neg h2, if_neg h3, if_neg h4, if_neg h5, if_neg h6, if_neg h7]
  by_cases hp : 0x20 ≤ c.toNat ∧ c.toNat ≤ 0x7e
  · rw [henc, if_pos (by simp [hp.1, hp.2])]
    show parseStringBody (fuel + 1) acc (c :: tail) = _
    rw [psb_cons, if_neg h1, if_neg h2, if_pos hp.1]
  · have hval : c.toNat < 0xd800 ∨ (0xdfff < c.toNat ∧ c.toNat < 0x110000) := c.valid
    by_cases hbig : c.toNat < 0x10000
    · rw [henc, if_neg (by simp only [Bool.and_eq_true, decide_eq_true_eq]; omega),
        if_pos hbig]
      show parseStringBody (fuel + 1) acc
        ('\\' :: 'u' :: hexDigitChar (c.toNat / 4096 % 16) ::
          hexDigitChar (c.toNat / 256 % 16) :: hexDigitChar (c.toNat / 16 % 16) ::
          hexDigitChar (c.toNat % 16) :: tail) = _
      rw [psb_cons, if_neg (by decide), if_pos rfl, decodeEscape_u,
        decodeU_single _ _ _ _ tail c.toNat (hex4_toHex4 _ hbig)
          (by rcases hval with hv | hv <;>
            simp only [Bool.or_eq_true, decide_eq_true_eq] <;> omega)]
      dsimp only
      rw [Char.ofNat_toNat]
    · have hup : c.toNat < 0x110000 := by
        rcases hval with hv | hv <;> omega
      have hlow : 0x10000 ≤ c.toNat := by omega
      rw [henc, if_neg (by simp only [Bool.and_eq_true, decide_eq_true_eq]; omega),
        if_neg hbig]
      show parseStringBody (fuel + 1) acc
        ('\\' :: 'u' :: hexDigitChar ((0xd800 + (c.toNat - 0x10000) / 0x400) / 4096 % 16) ::
          hexDigitChar ((0xd800 + (c.toNat - 0x10000) / 0x400) / 256 % 16) ::
          hexDigitChar ((0xd800 + (c.toNat - 0x10000) / 0x400) / 16 % 16) ::
          hexDigitChar ((0xd800 + (c.toNat - 0x10000) / 0x400) % 16) ::
          '\\' :: 'u' :: hexDigitChar ((0xdc00 + (c.toNat - 0x10000) % 0x400) / 4096 % 16) ::
          hexDigitChar ((0xdc00 + (c.toNat - 0x10000) % 0x400) / 256 % 16) ::
          hexDigitChar ((0xdc00 + (c.toNat - 0x10000) % 0x400) / 16 % 16) ::
          hexDigitChar ((0xdc00 + (c.toNat - 0x10000) % 0x400) % 16) :: tail) = _
      rw [psb_cons, if_neg (by decide), if_pos rfl, decodeEscape_u,
        decodeU_pair _ _ _ _ _ _ _ _ tail
          (0xd800 + (c.toNat - 0x10000) / 0x400) (0xdc00 + (c.toNat - 0x10000) % 0x400)
          (hex4_toHex4 _ (by omega)) (by omega) (by omega)
          (hex4_toHex4 _ (by omega))
          (by simp only [Bool.and_eq_true, decide_eq_true_eq]; omega)]
      dsimp only
      rw [show 0x10000 + ((0xd800 + (c.toNat - 0x10000) / 0x400) - 0xd800) * 0x400 +
          ((0xdc00 + (c.toNat - 0x10000) % 0x400) - 0xdc00) = c.toNat from by omega]
      rw [Char.ofNat_toNat]

theorem parseStringBody_round : ∀ (cs : List Char) (fuel : Nat) (acc rest : List Char),
    cs.length + 1 ≤ fuel →
    parseStringBody fuel acc ((cs.map encChar).flatten ++ '"' :: rest) =
      some (String.mk (acc.reverse ++ cs), rest) := by
  intro cs
  induction cs with
  | nil =>
    intro fuel acc rest hf
    cases fuel with
    | zero => omega
    | succ f =>
      show parseStringBody (f + 1) acc ('"' :: rest) = _
      rw [List.append_nil]
      rfl
  | cons c cs' ih =>
    intro fuel acc rest hf
    cases fuel with
    | zero => simp at hf
    | succ f =>
      show parseStringBody (f + 1) acc
        ((encChar c ++ (cs'.map encChar).flatten) ++ '"' :: rest) = _
      rw [List.append_assoc, parseStringBody_encChar, ih f _ _ (by
        simp only [List.length_cons] at hf
        omega)]
      simp

theorem encChar_length_pos (c : Char) : 1 ≤ (encChar c).length := by
  unfold encChar
  repeat' split
  all_goals simp [toHex4]

theorem len_le_encFlatten (cs : List Char) : cs.length ≤ ((cs.map encChar).flatten).length := by
  induction cs with
  | nil => simp
  | cons c cs' ih =>
    show (c :: cs').length ≤ (encChar c ++ (cs'.map encChar).flatten).length
    rw [List.length_append]
    have h1 := encChar_length_pos c
    simp only [List.length_cons]
    omega

theorem parseStringBody_encString (s : String) (rest : List Char) :
    parseStringBody (((s.toList.map encChar).flatten ++ '"' :: rest).length + 1) []
      ((s.toList.map encChar).flatten ++ '"' :: rest) = some (s, rest) := by
  rw [parseStringBody_round s.toList _ [] rest (by
    have := len_le_encFlatten s.toList
    simp only [List.length_append, List.length_cons]
    omega)]
  rfl

/-! ## Parser entry equations and head facts -/

theorem pv_cons (fuel : Nat) (c : Char) (r : List Char) :
    parseValue (fuel + 1) (c :: r) =
      (if c = '\x7b' then
        match skipJWs r with
        | [] => parseMembers fuel [] []
        | c2 :: r2 =>
          if c2 = '\x7d' then some (.obj [], r2) else parseMembers fuel [] (c2 :: r2)
      else if c = '[' then
        match skipJWs r with
        | [] => parseItems fuel [] []
        | c2 :: r2 =>
          if c2 = ']' then some (.arr [], r2) else parseItems fuel [] (c2 :: r2)
      else if c = '"' then
        (parseStringBody (r.length + 1) [] r).map (fun p => (JValue.str p.1, p.2))
      else if c = 'n' then
        match r with
        | 'u' :: 'l' :: 'l' :: r2 => some (.null, r2)
        | _ => none
      else if c = 't' then
        match r with
        | 'r' :: 'u' :: 'e' :: r2 => some (.bool true, r2)
        | _ => none
      else if c = 'f' then
        match r with
        | 'a' :: 'l' :: 's' :: 'e' :: r2 => some (.bool false, r2)
        | _ => none
      else parseNumber (c :: r)) := rfl

theorem pitems_succ (fuel : Nat) (acc : List JValue) (l : List Char) :
    parseItems (fuel + 1) acc l =
      (match parseValue fuel l with
       | none => none
       | some (v, r) =>
         match skipJWs r with
         | ',' :: r2 => parseItems fuel (acc ++ [v]) (skipJWs r2)
         | ']' :: r2 => some (.arr (acc ++ [v]), r2)
         | _ => none) := rfl

theorem pmembers_quote (fuel : Nat) (acc : List (String × JValue)) (rest : List Char) :
    parseMembers (fuel + 1) acc ('"' :: rest) =
      (match parseStringBody (rest.length + 1) [] rest with
       | none => none
       | some (k, r1) =>
         match skipJWs r1 with
         | ':' :: r2 =>
           match parseValue fuel (skipJWs r2) with
           | none => none
           | some (v, r3) =>
             match skipJWs r3 with
             | ',' :: r4 => parseMembers fuel (dictSet acc k v) (skipJWs r4)
             | '\x7d' :: r4 => some (.obj (dictSet acc k v), r4)
             | _ => none
         | _ => none) := rfl

theorem skipJWs_cons (c : Char) (l : List Char) (h : jwsChar c = false) :
    skipJWs (c :: l) = c :: l := by
  unfold skipJWs
  rw [List.dropWhile_cons, h]
  simp

theorem skipJWs_space (l : List Char) : skipJWs (' ' :: l) = skipJWs l := by
  unfold skipJWs
  rw [List.dropWhile_cons]
  simp [jwsChar]

theorem jsize_pos (v : JValue) : 1 ≤ jsize v := by
  cases v <;> simp [jsize]

theorem dumpVal_head (v : JValue) :
    ∃ c cs, dumpVal v = c :: cs ∧ jwsChar c = false ∧ c ≠ ']' ∧ c ≠ '\x7d' := by
  have hgood : ∀ c : Char,
      c ∈ (['n', 't', 'f', '"', '[', '\x7b', '-'] : List Char) →
      jwsChar c = false ∧ c ≠ ']' ∧ c ≠ '\x7d' := by decide
  cases v with
  | int n =>
    obtain ⟨c, cs, hser, hc⟩ := intSerialize_head n
    rcases hc with rfl | ⟨d, hd, rfl⟩
    · exact ⟨'-', cs, hser, hgood _ (by decide)⟩
    · obtain ⟨-, hws, hbr, hbc, -⟩ := digitChar_props d hd
      exact ⟨digitChar d, cs, hser, hws, hbr, hbc⟩
  | null => exact ⟨'n', _, rfl, hgood _ (by decide)⟩
  | bool b =>
    cases b
    case true => exact ⟨'t', _, rfl, hgood _ (by decide)⟩
    case false => exact ⟨'f', _, rfl, hgood _ (by decide)⟩
  | str s => exact ⟨'"', _, rfl, hgood _ (by decide)⟩
  | arr l =>
    cases l
    case nil => exact ⟨'[', _, rfl, hgood _ (by decide)⟩
    case cons x xs => exact ⟨'[', _, rfl, hgood _ (by decide)⟩
  | obj ff =>
    cases ff
    case nil => exact ⟨'\x7b', _, rfl, hgood _ (by decide)⟩
    case cons kv kvs =>
      obtain ⟨k, v⟩ := kv
      exact ⟨'\x7b', _, rfl, hgood _ (by decide)⟩

theorem keysNodupB_not_mem : ∀ (xs : List String) (y : String) (ys : List String),
    keysNodupB (xs ++ y :: ys) = true → ¬ y ∈ xs := by
  intro xs
  induction xs with
  | nil => intro y ys h hmem; simp at hmem
  | cons x xs' ih =>
    intro y ys h hmem
    simp only [keysNodupB, List.cons_append, List.append_eq, Bool.and_eq_true] at h
    rcases List.mem_cons.mp hmem with rfl | hmem'
    · have hc : (xs' ++ y :: ys).contains y = true := by
        have : y ∈ xs' ++ y :: ys := by simp
        exact List.elem_iff.mpr this
      rw [hc] at h
      simp at h
    · exact ih y ys h.2 hmem'

theorem dictSet_append (m : List (String × JValue)) (k : String) (v : JValue)
    (h : ∀ p ∈ m, p.1 ≠ k) : dictSet m k v = m ++ [(k, v)] := by
  induction m with
  | nil => rfl
  | cons hd t ih =>
    obtain ⟨k2, v2⟩ := hd
    have hk : k2 ≠ k := h (k2, v2) (by simp)
    simp only [dictSet, if_neg hk, List.cons_append]
    rw [ih (fun p hp => h p (by simp [hp]))]

theorem pmembers_enc (fuel : Nat) (acc : List (String × JValue)) (k : String)
    (T : List Char) :
    parseMembers (fuel + 1) acc
        ('"' :: ((k.toList.map encChar).flatten ++ '"' :: (':' :: ' ' :: T))) =
      pmContinue fuel acc k (parseValue fuel (skipJWs T)) := by
  rw [pmembers_quote, parseStringBody_encString]
  rfl

theorem pmContinue_some (fuel : Nat) (acc : List (String × JValue)) (k : String)
    (v : JValue) (r3 : List Char) :
    pmContinue fuel acc k (some (v, r3)) =
      (match skipJWs r3 with
       | ',' :: r4 => parseMembers fuel (dictSet acc k v) (skipJWs r4)
       | '\x7d' :: r4 => some (.obj (dictSet acc k v), r4)
       | _ => none) := rfl

theorem wfListB_cons (x : JValue) (xs : List JValue) :
    wfListB (x :: xs) = (wfB x && wfListB xs) := by
  rw [wfListB]

theorem wfFieldsB_cons (k : String) (v : JValue) (kvs : List (String × JValue)) :
    wfFieldsB ((k, v) :: kvs) = (wfB v && wfFieldsB kvs) := by
  rw [wfFieldsB]

theorem jsizeList_cons (x : JValue) (xs : List JValue) :
    jsizeList (x :: xs) = 1 + jsize x + jsizeList xs := by
  rw [jsizeList]

theorem jsizeFields_cons (k : String) (v : JValue) (kvs : List (String × JValue)) :
    jsizeFields ((k, v) :: kvs) = 1 + jsize v + jsizeFields kvs := by
  rw [jsizeFields]

theorem parse_dump_round : ∀ (fuel : Nat),
    (∀ (v : JValue) (rest : List Char), wfB v = true → jsize v ≤ fuel →
       isDigitHead rest = false →
       parseValue fuel (dumpVal v ++ rest) = some (v, rest)) ∧
    (∀ (x : JValue) (xs : List JValue) (acc : List JValue) (rest : List Char),
       wfListB (x :: xs) = true → jsizeList (x :: xs) ≤ fuel →
       isDigitHead rest = false →
       parseItems fuel acc (dumpVal x ++ (dumpRest xs ++ ']' :: rest)) =
         some (JValue.arr (acc ++ x :: xs), rest)) ∧
    (∀ (k : String) (v : JValue) (kvs : List (String × JValue))
       (acc : List (String × JValue)) (rest : List Char),
       wfFieldsB ((k, v) :: kvs) = true → jsizeFields ((k, v) :: kvs) ≤ fuel →
       isDigitHead rest = false →
       keysNodupB ((acc ++ (k, v) :: kvs).map Prod.fst) = true →
       parseMembers fuel acc
           (encString k ++ ':' :: ' ' :: (dumpVal v ++ (dumpRestKV kvs ++ '\x7d' :: rest))) =
         some (JValue.obj (acc ++ (k, v) :: kvs), rest)) := by
  intro fuel
  induction fuel with
  | zero =>
    refine ⟨?_, ?_, ?_⟩
    · intro v rest _ hsz _
      have := jsize_pos v
      omega
    · intro x xs acc rest _ hsz _
      have := jsize_pos x
      rw [jsizeList_cons] at hsz
      omega
    · intro k v kvs acc rest _ hsz _ _
      have := jsize_pos v
      rw [jsizeFields_cons] at hsz
      omega
  | succ f ih =>
    obtain ⟨ihP, ihQ, ihR⟩ := ih
    refine ⟨?_, ?_, ?_⟩
    · intro v rest hwf hsz hdig
      cases v with
      | null => rfl
      | bool b => cases b <;> rfl
      | int n =>
        obtain ⟨c, cs, hser, hc⟩ := intSerialize_head n
        have hnum : parseValue (f + 1) (intSerialize n ++ rest) =
            parseNumber (intSerialize n ++ rest) := by
          rw [hser]
          show parseValue (f + 1) (c :: (cs ++ rest)) = parseNumber ((c :: cs) ++ rest)
          rw [pv_cons]
          rcases hc with rfl | ⟨d, hd, rfl⟩
          · rw [if_neg (by decide), if_neg (by decide), if_neg (by decide),
              if_neg (by decide), if_neg (by decide), if_neg (by decide)]
            simp
          · obtain ⟨-, -, -, -, h5, h6, h7, h8, h9, h10⟩ := digitChar_props d hd
            rw [if_neg h5, if_neg h6, if_neg h7, if_neg h8, if_neg h9, if_neg h10]
            simp
        show parseValue (f + 1) (intSerialize n ++ rest) = some (JValue.int n, rest)
        rw [hnum, parseNumber_intSerialize n rest hdig]
      | str s =>
        show parseValue (f + 1)
            ('"' :: (((s.toList.map encChar).flatten ++ ['"']) ++ rest)) =
          some (JValue.str s, rest)
        rw [pv_cons, if_neg (by decide), if_neg (by decide), if_pos rfl]
        rw [show ((s.toList.map encChar).flatten ++ ['"']) ++ rest =
            (s.toList.map encChar).flatten ++ '"' :: rest from by simp]
        rw [parseStringBody_encString]
        rfl
      | arr l =>
        cases l with
        | nil => rfl
        | cons x xs =>
          show parseValue (f + 1)
              ('[' :: ((dumpVal x ++ (dumpRest xs ++ [']'])) ++ rest)) =
            some (JValue.arr (x :: xs), rest)
          rw [pv_cons, if_neg (by decide), if_pos rfl]
          rw [show (dumpVal x ++ (dumpRest xs ++ [']'])) ++ rest =
              dumpVal x ++ (dumpRest xs ++ ']' :: rest) from by simp]
          obtain ⟨c, cs, hd, hws, hbr, -⟩ := dumpVal_head x
          rw [hd]
          simp only [List.cons_append]
          rw [skipJWs_cons _ _ hws]
          dsimp only
          rw [if_neg hbr]
          rw [show c :: (cs ++ (dumpRest xs ++ ']' :: rest)) =
              dumpVal x ++ (dumpRest xs ++ ']' :: rest) from by rw [hd]; simp]
          have hwf' : wfListB (x :: xs) = true := by
            rw [show wfB (JValue.arr (x :: xs)) = wfListB (x :: xs) from by rw [wfB]] at hwf
            exact hwf
          have hsz' : jsizeList (x :: xs) ≤ f := by
            rw [show jsize (JValue.arr (x :: xs)) = 1 + jsizeList (x :: xs) from by rw [jsize]] at hsz
            omega
          rw [ihQ x xs [] rest hwf' hsz' hdig]
          simp
      | obj ff =>
        cases ff with
        | nil => rfl
        | cons kv kvs =>
          obtain ⟨k, v⟩ := kv
          show parseValue (f + 1)
              ('\x7b' :: ((encString k ++ ':' :: ' ' ::
                (dumpVal v ++ (dumpRestKV kvs ++ ['\x7d']))) ++ rest)) =
            some (JValue.obj ((k, v) :: kvs), rest)
          rw [pv_cons, if_pos rfl]
          rw [show (encString k ++ ':' :: ' ' :: (dumpVal v ++ (dumpRestKV kvs ++ ['\x7d']))) ++ rest =
              '"' :: (((k.toList.map encChar).flatten ++ ['"']) ++
                (':' :: ' ' :: (dumpVal v ++ (dumpRestKV kvs ++ '\x7d' :: rest)))) from by
            show (('"' :: ((k.toList.map encChar).flatten ++ ['"'])) ++
                (':' :: ' ' :: (dumpVal v ++ (dumpRestKV kvs ++ ['\x7d'])))) ++ rest = _
            simp]
          rw [skipJWs_cons _ _ (by decide)]
          dsimp only
          rw [if_neg (by decide)]
          rw [show ('"' : Char) :: (((k.toList.map encChar).flatten ++ ['"']) ++
              (':' :: ' ' :: (dumpVal v ++ (dumpRestKV kvs ++ '\x7d' :: rest)))) =
              encString k ++ ':' :: ' ' :: (dumpVal v ++ (dumpRestKV kvs ++ '\x7d' :: rest)) from by
            show _ = ('"' :: ((k.toList.map encChar).flatten ++ ['"'])) ++ _
            simp]
          have hwf' := hwf
          rw [show wfB (JValue.obj ((k, v) :: kvs)) =
              (keysNodupB (((k, v) :: kvs).map Prod.fst) && wfFieldsB ((k, v) :: kvs)) from by
            rw [wfB]] at hwf'
          have hwf2 : keysNodupB (((k, v) :: kvs).map Prod.fst) = true ∧
              wfFieldsB ((k, v) :: kvs) = true := by
            simpa only [Bool.and_eq_true] using hwf'
          have hsz' : jsizeFields ((k, v) :: kvs) ≤ f := by
            rw [show jsize (JValue.obj ((k, v) :: kvs)) = 1 + jsizeFields ((k, v) :: kvs) from by
              rw [jsize]] at hsz
            omega
          have hnd : keysNodupB (([] ++ (k, v) :: kvs).map Prod.fst) = true := by
            simpa using hwf2.1
          rw [ihR k v kvs [] rest hwf2.2 hsz' hdig hnd]
          simp
    · intro x xs acc rest hwf hsz hdig
      rw [pitems_succ]
      have hdig2 : isDigitHead (dumpRest xs ++ ']' :: rest) = false := by
        cases xs with
        | nil => rfl
        | cons y ys => rfl
      rw [wfListB_cons] at hwf
      have hwfs : wfB x = true ∧ wfListB xs = true := by
        simpa only [Bool.and_eq_true] using hwf
      have hszx : jsize x ≤ f := by
        rw [jsizeList_cons] at hsz
        omega
      rw [ihP x (dumpRest xs ++ ']' :: rest) hwfs.1 hszx hdig2]
      dsimp only
      cases xs with
      | nil =>
        rw [show dumpRest [] ++ ']' :: rest = ']' :: rest from rfl]
        rfl
      | cons y ys =>
        rw [show dumpRest (y :: ys) ++ ']' :: rest =
            ',' :: ' ' :: (dumpVal y ++ (dumpRest ys ++ ']' :: rest)) from by
          show (',' :: ' ' :: (dumpVal y ++ dumpRest ys)) ++ ']' :: rest = _
          simp]
        show parseItems f (acc ++ [x])
            (skipJWs (' ' :: (dumpVal y ++ (dumpRest ys ++ ']' :: rest)))) =
          some (JValue.arr (acc ++ x :: y :: ys), rest)
        rw [skipJWs_space]
        obtain ⟨c, cs, hdy, hws, -, -⟩ := dumpVal_head y
        rw [hdy]
        simp only [List.cons_append]
        rw [skipJWs_cons _ _ hws]
        rw [show c :: (cs ++ (dumpRest ys ++ ']' :: rest)) =
            dumpVal y ++ (dumpRest ys ++ ']' :: rest) from by rw [hdy]; simp]
        have hsz2 : jsizeList (y :: ys) ≤ f := by
          have := jsize_pos x
          rw [jsizeList_cons] at hsz
          omega
        rw [ihQ y ys (acc ++ [x]) rest hwfs.2 hsz2 hdig]
        simp
    · intro k v kvs acc rest hwf hsz hdig hnd
      have hka : ∀ p ∈ acc, p.1 ≠ k := by
        intro p hp he
        have hnd' : keysNodupB (acc.map Prod.fst ++ k :: kvs.map Prod.fst) = true := by
          simpa using hnd
        exact keysNodupB_not_mem _ _ _ hnd' (he ▸ List.mem_map_of_mem Prod.fst hp)
      rw [show encString k ++ ':' :: ' ' :: (dumpVal v ++ (dumpRestKV kvs ++ '\x7d' :: rest)) =
          '"' :: ((k.toList.map encChar).flatten ++ '"' ::
            (':' :: ' ' :: (dumpVal v ++ (dumpRestKV kvs ++ '\x7d' :: rest)))) from by
        show ('"' :: ((k.toList.map encChar).flatten ++ ['"'])) ++ _ = _
        simp]
      rw [pmembers_enc]
      obtain ⟨c, cs, hdv, hws, -, -⟩ := dumpVal_head v
      rw [hdv]
      simp only [List.cons_append]
      rw [skipJWs_cons _ _ hws]
      rw [show c :: (cs ++ (dumpRestKV kvs ++ '\x7d' :: rest)) =
          dumpVal v ++ (dumpRestKV kvs ++ '\x7d' :: rest) from by rw [hdv]; simp]
      have hdig3 : isDigitHead (dumpRestKV kvs ++ '\x7d' :: rest) = false := by
        cases kvs with
        | nil => rfl
        | cons p ps =>
          obtain ⟨k2, v2⟩ := p
          rfl
      rw [wfFieldsB_cons] at hwf
      have hwfs : wfB v = true ∧ wfFieldsB kvs = true := by
        simpa only [Bool.and_eq_true] using hwf
      have hszv : jsize v ≤ f := by
        rw [jsizeFields_cons] at hsz
        omega
      rw [ihP v (dumpRestKV kvs ++ '\x7d' :: rest) hwfs.1 hszv hdig3]
      rw [pmContinue_some]
      rw [dictSet_append acc k v hka]
      cases kvs with
      | nil =>
        rw [show dumpRestKV [] ++ '\x7d' :: rest = '\x7d' :: rest from rfl]
        rfl
      | cons p ps =>
        obtain ⟨k2, v2⟩ := p
        rw [show dumpRestKV ((k2, v2) :: ps) ++ '\x7d' :: rest =
            ',' :: ' ' :: (encString k2 ++ ':' :: ' ' ::
              (dumpVal v2 ++ (dumpRestKV ps ++ '\x7d' :: rest))) from by
          show (',' :: ' ' :: (encString k2 ++ ':' :: ' ' :: (dumpVal v2 ++ dumpRestKV ps))) ++
              '\x7d' :: rest = _
          simp]
        show parseMembers f (acc ++ [(k, v)])
            (skipJWs (' ' :: (encString k2 ++ ':' :: ' ' ::
              (dumpVal v2 ++ (dumpRestKV ps ++ '\x7d' :: rest))))) =
          some (JValue.obj (acc ++ (k, v) :: (k2, v2) :: ps), rest)
        rw [skipJWs_space]
        rw [show encString k2 ++ ':' :: ' ' :: (dumpVal v2 ++ (dumpRestKV ps ++ '\x7d' :: rest)) =
            '"' :: (((k2.toList.map encChar).flatten ++ ['"']) ++
              (':' :: ' ' :: (dumpVal v2 ++ (dumpRestKV ps ++ '\x7d' :: rest)))) from by
          show ('"' :: ((k2.toList.map encChar).flatten ++ ['"'])) ++
              (':' :: ' ' :: (dumpVal v2 ++ (dumpRestKV ps ++ '\x7d' :: rest))) = _
          simp]
        rw [skipJWs_cons _ _ (by decide)]
        rw [show ('"' : Char) :: (((k2.toList.map encChar).flatten ++ ['"']) ++
            (':' :: ' ' :: (dumpVal v2 ++ (dumpRestKV ps ++ '\x7d' :: rest)))) =
            encString k2 ++ ':' :: ' ' :: (dumpVal v2 ++ (dumpRestKV ps ++ '\x7d' :: rest)) from by
          show _ = ('"' :: ((k2.toList.map encChar).flatten ++ ['"'])) ++
              (':' :: ' ' :: (dumpVal v2 ++ (dumpRestKV ps ++ '\x7d' :: rest)))
          simp]
        have hwf2 : wfFieldsB ((k2, v2) :: ps) = true := hwfs.2
        have hsz2 : jsizeFields ((k2, v2) :: ps) ≤ f := by
          have := jsize_pos v
          rw [jsizeFields_cons] at hsz
          omega
        have hnd2 : keysNodupB (((acc ++ [(k, v)]) ++ (k2, v2) :: ps).map Prod.fst) = true := by
          rw [show (acc ++ [(k, v)]) ++ (k2, v2) :: ps = acc ++ (k, v) :: (k2, v2) :: ps from by
            simp]
          exact hnd
        rw [ihR k2 v2 ps (acc ++ [(k, v)]) rest hwf2 hsz2 hdig hnd2]
        simp

mutual
theorem jsize_le_dump : ∀ (v : JValue), jsize v ≤ (dumpVal v).length
  | .null => by decide
  | .bool true => by decide
  | .bool false => by decide
  | .int n => by
    obtain ⟨c, cs, hser, -⟩ := intSerialize_head n
    show jsize (JValue.int n) ≤ (intSerialize n).length
    rw [hser]
    simp [jsize]
  | .str s => by
    show jsize (JValue.str s) ≤ (encString s).length
    simp [jsize, encString]
  | .arr [] => by decide
  | .arr (x :: xs) => by
    have h1 := jsize_le_dump x
    have h2 := jsizeList_le_dumpRest xs
    show 1 + jsizeList (x :: xs) ≤
      ('[' :: (dumpVal x ++ (dumpRest xs ++ [']']))).length
    rw [jsizeList_cons]
    simp only [List.length_cons, List.length_append]
    omega
  | .obj [] => by decide
  | .obj ((k, v) :: kvs) => by
    have h1 := jsize_le_dump v
    have h2 := jsizeFields_le_dumpRestKV kvs
    show 1 + jsizeFields ((k, v) :: kvs) ≤
      ('\x7b' :: (encString k ++ ':' :: ' ' ::
        (dumpVal v ++ (dumpRestKV kvs ++ ['\x7d'])))).length
    rw [jsizeFields_cons]
    simp only [List.length_cons, List.length_append]
    omega
theorem jsizeList_le_dumpRest : ∀ (xs : List JValue), jsizeList xs ≤ (dumpRest xs).length
  | [] => by decide
  | x :: xs => by
    have h1 := jsize_le_dump x
    have h2 := jsizeList_le_dumpRest xs
    show jsizeList (x :: xs) ≤ (',' :: ' ' :: (dumpVal x ++ dumpRest xs)).length
    rw [jsizeList_cons]
    simp only [List.length_cons, List.length_append]
    omega
theorem jsizeFields_le_dumpRestKV :
    ∀ (kvs : List (String × JValue)), jsizeFields kvs ≤ (dumpRestKV kvs).length
  | [] => by decide
  | (k, v) :: kvs => by
    have h1 := jsize_le_dump v
    have h2 := jsizeFields_le_dumpRestKV kvs
    show jsizeFields ((k, v) :: kvs) ≤
      (',' :: ' ' :: (encString k ++ ':' :: ' ' :: (dumpVal v ++ dumpRestKV kvs))).length
    rw [jsizeFields_cons]
    simp only [List.length_cons, List.length_append]
    omega
end

theorem jparseL_dumpVal (v : JValue) (hwf : wfB v = true) :
    jparseL (dumpVal v) = some v := by
  obtain ⟨c, cs, hd, hws, -, -⟩ := dumpVal_head v
  unfold jparseL
  rw [show skipJWs (dumpVal v) = dumpVal v from by rw [hd]; exact skipJWs_cons _ _ hws]
  have hsz : jsize v ≤ (dumpVal v).length + 1 := by
    have := jsize_le_dump v
    omega
  have hP := (parse_dump_round ((dumpVal v).length + 1)).1 v [] hwf hsz rfl
  rw [List.append_nil] at hP
  rw [hP]
  rfl

theorem pjn_allObj : ∀ (l : List JValue), allObjB l = true →
    (parse_json_and_normalize (JValue.arr l)).map JValue.obj = l := by
  intro l
  induction l with
  | nil => intro h; rfl
  | cons x xs ih =>
    intro h
    cases x with
    | obj f =>
      have h' : allObjB xs = true := h
      have hstep : parse_json_and_normalize (JValue.arr (JValue.obj f :: xs)) =
          f :: parse_json_and_normalize (JValue.arr xs) := rfl
      rw [hstep, List.map_cons, ih h']
    | null => simp [allObjB] at h
    | bool b => simp [allObjB] at h
    | int n => simp [allObjB] at h
    | str s => simp [allObjB] at h
    | arr l2 => simp [allObjB] at h

theorem save_review_ok (fn fh code : String) (a : List (String × JValue))
    (summ : String) (r m b : Int) (sugs iss : List JValue) (lv : JValue)
    (hl : (dictGet a "language").getD .null = lv)
    (hlok : sqliteBind lv = Except.ok lv)
    (hsumm : dictGet a "review_summary" = some (.str summ))
    (hr : dictGet a "readability_score" = some (.int r))
    (hm : dictGet a "modularity_score" = some (.int m))
    (hb : dictGet a "bug_risk_score" = some (.int b))
    (hs : dictGet a "suggestions" = some (.arr sugs))
    (hi : dictGet a "issues" = some (.arr iss)) :
    save_review_to_db fn fh code a =
      Except.ok
        { filename := fn, file_hash := fh, language := lv,
          lines_of_code := linesOfCode code, review_summary := .str summ,
          readability_score := .int r, modularity_score := .int m,
          bug_risk_score := .int b,
          suggestions := String.mk (dumpVal (.arr sugs)),
          issues := String.mk (dumpVal (.arr iss)) } := by
  unfold save_review_to_db
  rw [hsumm, hr, hm, hb, hs, hi, hl, hlok]
  rfl

theorem get_review_ok (row : Row) (sugs iss : List JValue)
    (hsug : row.suggestions = String.mk (dumpVal (.arr sugs)))
    (hiss : row.issues = String.mk (dumpVal (.arr iss)))
    (hws : wfListB sugs = true) (hwi : wfListB iss = true)
    (lang : Option String) (hlang : fieldOptStr row.language = Except.ok lang)
    (summ : String) (hsumm : row.review_summary = .str summ)
    (r m b : Int) (hr : row.readability_score = .int r)
    (hm : row.modularity_score = .int m) (hb : row.bug_risk_score = .int b) :
    get_review row =
      Except.ok
        { filename := row.filename, language := lang,
          lines_of_code := row.lines_of_code, review_summary := summ,
          readability_score := r, modularity_score := m, bug_risk_score := b,
          suggestions := parse_json_and_normalize (.arr sugs),
          issues := parse_json_and_normalize (.arr iss) } := by
  unfold get_review
  rw [hsug, hiss,
    show (String.mk (dumpVal (JValue.arr sugs))).toList = dumpVal (JValue.arr sugs) from rfl,
    show (String.mk (dumpVal (JValue.arr iss))).toList = dumpVal (JValue.arr iss) from rfl,
    jparseL_dumpVal (JValue.arr sugs) hws, jparseL_dumpVal (JValue.arr iss) hwi]
  dsimp only
  rw [hlang, hsumm, hr, hm, hb]
  rfl

/-- C9: a normalized analysis record that conforms to the ReviewRecord
schema (summary a string, the three scores integers, suggestions and
issues arrays of well-formed objects, language absent/null or a string)
survives the `save_review_to_db` / `get_review` round trip with
field-for-field equality: every scalar comes back unchanged and the
suggestions and issues sequences are reproduced element for element, in
order, after the `json.dumps` / `json.loads` trip through the serialized
text columns. -/
theorem C9_roundtrip (fn fh code : String) (a : List (String × JValue))
    (summ : String) (r m b : Int) (sugs iss : List JValue)
    (hlang : (dictGet a "language").getD .null = .null ∨
      ∃ s, (dictGet a "language").getD .null = .str s)
    (hsumm : dictGet a "review_summary" = some (.str summ))
    (hr : dictGet a "readability_score" = some (.int r))
    (hm : dictGet a "modularity_score" = some (.int m))
    (hb : dictGet a "bug_risk_score" = some (.int b))
    (hs : dictGet a "suggestions" = some (.arr sugs))
    (hi : dictGet a "issues" = some (.arr iss))
    (hws : wfListB sugs = true) (hwi : wfListB iss = true)
    (hos : allObjB sugs = true) (hoi : allObjB iss = true) :
    ∃ row out, save_review_to_db fn fh code a = Except.ok row ∧
      get_review row = Except.ok out ∧
      out.filename = fn ∧
      out.language = jvToOptStr ((dictGet a "language").getD .null) ∧
      out.lines_of_code = linesOfCode code ∧
      out.review_summary = summ ∧
      out.readability_score = r ∧
      out.modularity_score = m ∧
      out.bug_risk_score = b ∧
      out.suggestions.map JValue.obj = sugs ∧
      out.issues.map JValue.obj = iss := by
  rcases hlang with hl | ⟨s, hl⟩
  · refine ⟨_, _,
      save_review_ok fn fh code a summ r m b sugs iss .null hl rfl hsumm hr hm hb hs hi,
      get_review_ok
        { filename := fn, file_hash := fh, language := JValue.null,
          lines_of_code := linesOfCode code, review_summary := .str summ,
          readability_score := .int r, modularity_score := .int m,
          bug_risk_score := .int b,
          suggestions := String.mk (dumpVal (.arr sugs)),
          issues := String.mk (dumpVal (.arr iss)) }
        sugs iss rfl rfl hws hwi none rfl summ rfl r m b rfl rfl rfl,
      rfl, ?_, rfl, rfl, rfl, rfl, rfl, ?_, ?_⟩
    · rw [hl]
      rfl
    · exact pjn_allObj sugs hos
    · exact pjn_allObj iss hoi
  · refine ⟨_, _,
      save_review_ok fn fh code a summ r m b sugs iss (.str s) hl rfl hsumm hr hm hb hs hi,
      get_review_ok
        { filename := fn, file_hash := fh, language := JValue.str s,
          lines_of_code := linesOfCode code, review_summary := .str summ,
          readability_score := .int r, modularity_score := .int m,
          bug_risk_score := .int b,
          suggestions := String.mk (dumpVal (.arr sugs)),
          issues := String.mk (dumpVal (.arr iss)) }
        sugs iss rfl rfl hws hwi (some s) rfl summ rfl r m b rfl rfl rfl,
      rfl, ?_, rfl, rfl, rfl, rfl, rfl, ?_, ?_⟩
    · rw [hl]
      rfl
    · exact pjn_allObj sugs hos
    · exact pjn_allObj iss hoi

/-- C9 witness: a concrete conforming record round-trips through
`save_review_to_db` and `get_review` with every field preserved. -/
theorem C9_witness :
    ∃ row out,
      save_review_to_db "a.py" "h1" "print(1)"
          [("language", JValue.str "Python"), ("review_summary", JValue.str "ok"),
           ("readability_score", JValue.int 7), ("modularity_score", JValue.int 6),
           ("bug_risk_score", JValue.int 3),
           ("suggestions", JValue.arr [JValue.obj [("description", JValue.str "x")]]),
           ("issues", JValue.arr [])] = Except.ok row ∧
      get_review row = Except.ok out ∧
      out.filename = "a.py" ∧
      out.language = jvToOptStr ((dictGet
          [("language", JValue.str "Python"), ("review_summary", JValue.str "ok"),
           ("readability_score", JValue.int 7), ("modularity_score", JValue.int 6),
           ("bug_risk_score", JValue.int 3),
           ("suggestions", JValue.arr [JValue.obj [("description", JValue.str "x")]]),
           ("issues", JValue.arr [])] "language").getD .null) ∧
      out.lines_of_code = linesOfCode "print(1)" ∧
      out.review_summary = "ok" ∧
      out.readability_score = 7 ∧
      out.modularity_score = 6 ∧
      out.bug_risk_score = 3 ∧
      out.suggestions.map JValue.obj = [JValue.obj [("description", JValue.str "x")]] ∧
      out.issues.map JValue.obj = [] :=
  C9_roundtrip "a.py" "h1" "print(1)"
    [("language", JValue.str "Python"), ("review_summary", JValue.str "ok"),
     ("readability_score", JValue.int 7), ("modularity_score", JValue.int 6),
     ("bug_risk_score", JValue.int 3),
     ("suggestions", JValue.arr [JValue.obj [("description", JValue.str "x")]]),
     ("issues", JValue.arr [])]
    "ok" 7 6 3 [JValue.obj [("description", JValue.str "x")]] []
    (Or.inr ⟨"Python", rfl⟩) rfl rfl rfl rfl rfl rfl rfl rfl rfl rfl
